import Mathlib

/-!
# Verification of the df12-www markdown/section pipeline

A shallow embedding, in Lean, of the parts of the `df12-www` repository that
the specification's claims are about:

* `df12_pages/markdown_parser.py` (and the older variant
  `scripts/netsuke_docs/markdown_parser.py`) — splitting markdown into
  sections and subsections, slug generation, bold-line promotion;
* `df12_pages/generator/page_generator.py` — section-model building,
  numbered-step reordering, split-panel code extraction, the zero-section
  failure path of `run`;
* `df12_pages/generator/renderer.py` — fenced-code-block scanning
  (`CODE_BLOCK_PATTERN`) and `data-language` annotation;
* `df12_pages/generator/link_rewriter.py` — relative-link rewriting to
  GitHub blob URLs (with a faithful model of the used subset of
  `urllib.parse.urlsplit` and `posixpath`).

Strings are modelled as `List Char` (`Str`).  Python's regex passes, which
in the source are all `re.MULTILINE` patterns anchored at line starts, are
modelled line by line: a document is split on `'\n'` and the per-line
patterns are translated to executable predicates over a line's characters.
Python `str.strip()` is `pyStrip`, `str.lower()` is `lowerStr` (the inputs
of interest are ASCII, where the two languages agree).
-/

set_option maxHeartbeats 1000000
set_option maxRecDepth 4000

abbrev Str := List Char

/-- Whitespace per Python's `str.strip()` / regex `\s` (ASCII range). -/
def isPySpace (c : Char) : Bool :=
  c = ' ' || c = '\t' || c = '\n' || c = '\r' || c = '\x0b' || c = '\x0c'

/-- Python `str.strip()`: drop whitespace from both ends. -/
def pyStrip (s : Str) : Str :=
  ((s.dropWhile isPySpace).reverse.dropWhile isPySpace).reverse

/-- Python `str.lower()` (ASCII letters). -/
def lowerStr (s : Str) : Str := s.map Char.toLower

/-- Split a string on newline characters (`str.split("\n")` semantics:
the result always has one more element than the number of newlines). -/
def splitNl : Str → List Str
  | [] => [[]]
  | c :: cs =>
    let r := splitNl cs
    if c = '\n' then [] :: r
    else
      match r with
      | [] => [[c]]
      | l :: ls => (c :: l) :: ls

/-- Join lines with newline characters (inverse of `splitNl`). -/
def joinNl : List Str → Str
  | [] => []
  | [l] => l
  | l :: ls => l ++ '\n' :: joinNl ls

/-- Decimal rendering worker; the first argument is fuel (strictly larger
than the value), so that the definition is structurally recursive and the
kernel can evaluate it. -/
def natDigitsGo : Nat → Nat → Str
  | 0, _ => []
  | fuel + 1, n =>
    if n < 10 then [Char.ofNat (48 + n)]
    else natDigitsGo fuel (n / 10) ++ [Char.ofNat (48 + n % 10)]

/-- Decimal digit characters of a natural number (standard base-10 rendering,
as Python's `str(n)` / `f"{n}"` produce). -/
def natDigits (n : Nat) : Str := natDigitsGo (n + 1) n

theorem natDigitsGo_fuel : ∀ (f1 : Nat) (n f2 : Nat), n < f1 → n < f2 →
    natDigitsGo f1 n = natDigitsGo f2 n := by
  intro f1
  induction f1 with
  | zero => intro n f2 h; omega
  | succ f ih =>
    intro n f2 h1 h2
    cases f2 with
    | zero => omega
    | succ f2' =>
      by_cases hn : n < 10
      · simp [natDigitsGo, hn]
      · have hub : n / 10 < n := Nat.div_lt_self (by omega) (by omega)
        simp only [natDigitsGo, if_neg hn]
        rw [ih (n / 10) f2' (by omega) (by omega)]

theorem splitNl_no_newline (l : Str) (hl : '\n' ∉ l) : splitNl l = [l] := by
  induction l with
  | nil => rfl
  | cons c cs ih =>
    have hc : c ≠ '\n' := fun hc => hl (by simp [hc])
    have hcs : '\n' ∉ cs := fun hx => hl (by simp [hx])
    simp only [splitNl, if_neg hc, ih hcs]

theorem splitNl_append_cons (l : Str) (hl : '\n' ∉ l) (s : Str) :
    splitNl (l ++ '\n' :: s) = l :: splitNl s := by
  induction l with
  | nil => simp [splitNl]
  | cons c cs ih =>
    have hc : c ≠ '\n' := fun hc => hl (by simp [hc])
    have hcs : '\n' ∉ cs := fun hx => hl (by simp [hx])
    simp only [List.cons_append, splitNl, if_neg hc, List.append_eq, ih hcs]

theorem splitNl_joinNl (ls : List Str) (hne : ls ≠ [])
    (h : ∀ l ∈ ls, '\n' ∉ l) : splitNl (joinNl ls) = ls := by
  induction ls with
  | nil => exact absurd rfl hne
  | cons l ls ih =>
    cases ls with
    | nil => exact splitNl_no_newline l (h l (by simp))
    | cons l' ls' =>
      have : joinNl (l :: l' :: ls') = l ++ '\n' :: joinNl (l' :: ls') := rfl
      rw [this, splitNl_append_cons l (h l (by simp)),
        ih (by simp) (fun x hx => h x (by simp [hx]))]

/-! ## Section parser (`df12_pages/markdown_parser.py`) -/

/-- A line matching `SECTION_PATTERN = ^##\s+(.*)` (within one line). -/
def isSectionLine : Str → Bool
  | '#' :: '#' :: c :: _ => isPySpace c
  | _ => false

/-- A line matching `SUBSECTION_PATTERN = ^###\s+(.*)` (within one line). -/
def isSubsectionLine : Str → Bool
  | '#' :: '#' :: '#' :: c :: _ => isPySpace c
  | _ => false

/-- The `(.*)` capture of `SECTION_PATTERN`: text after `##` and the
greedy run of whitespace. -/
def sectionTitleRaw (l : Str) : Str := (l.drop 2).dropWhile isPySpace

/-- The `(.*)` capture of `SUBSECTION_PATTERN`. -/
def subsectionTitleRaw (l : Str) : Str := (l.drop 3).dropWhile isPySpace

/-- Model of `_clean_heading`: remove backslashes, then strip. -/
def cleanHeading (s : Str) : Str := pyStrip (s.filter (· ≠ '\\'))

def isLowerAlnum (c : Char) : Bool := ('a' ≤ c && c ≤ 'z') || ('0' ≤ c && c ≤ '9')

/-- Model of `re.sub(r"[^a-z0-9]+", "-", s)`: collapse each maximal run of
non-alphanumeric characters into a single hyphen.  The boolean argument
records whether we are inside such a run. -/
def collapseGo : Bool → Str → Str
  | _, [] => []
  | inRun, c :: cs =>
    if isLowerAlnum c then c :: collapseGo false cs
    else if inRun then collapseGo true cs
    else '-' :: collapseGo true cs

/-- Model of `re.sub(r"^\d+\.?\s*", "", s)`: strip a leading numeric prefix. -/
def stripLeadingNumber (s : Str) : Str :=
  match s with
  | c :: _ =>
    if c.isDigit then
      let r := s.dropWhile Char.isDigit
      let r := match r with
        | '.' :: r' => r'
        | _ => r
      r.dropWhile isPySpace
    else s
  | [] => s

/-- Model of `_slugify` from `df12_pages/markdown_parser.py`. -/
def slugify (title : Str) : Str :=
  let noNumber := stripLeadingNumber (lowerStr title)
  let slug := ((collapseGo false noNumber).dropWhile (· = '-')).reverse
    |>.dropWhile (· = '-') |>.reverse
  if slug = [] then "section".data else slug

/-- One candidate tried by `_unique_slug`'s loop: the base itself first,
then `base-2`, `base-3`, …. -/
def slugCandidate (base : Str) (k : Nat) : Str :=
  if k = 0 then base else base ++ '-' :: natDigits (k + 1)

/-- The loop of `_unique_slug`, with explicit fuel (the loop in the source
always terminates because candidates are pairwise distinct and the used set
is finite; `uniqueSlug` supplies enough fuel for that argument). -/
def uniqueSlugGo (base : Str) (used : List Str) : Nat → Nat → Str
  | 0, k => slugCandidate base k
  | fuel + 1, k =>
    if slugCandidate base k ∈ used then uniqueSlugGo base used fuel (k + 1)
    else slugCandidate base k

/-- Model of `_unique_slug`: first candidate not in `used`. -/
def uniqueSlug (base : Str) (used : List Str) : Str :=
  uniqueSlugGo base used (used.length + 1) 0

/-- The `Subsection` dataclass. -/
structure Subsection where
  title : Str
  markdown : Str
deriving Repr, DecidableEq

/-- The `Section` dataclass. -/
structure Section where
  title : Str
  short_title : Str
  slug : Str
  order : Nat
  markdown : Str
  intro_markdown : Str
  subsections : List Subsection
deriving Repr, DecidableEq

/-- Model of `BOLD_HEADING_PATTERN = ^\s*\*\*(.+?)\*\*\s*$`, lazily matched:
given the text after the opening `**`, find the shortest non-empty
`group(1)` followed by `**` and trailing whitespace. -/
def boldMidGo (acc : Str) : Str → Option Str
  | [] => none
  | c :: cs =>
    if acc ≠ [] ∧ ('*' :: '*' :: []).isPrefixOf (c :: cs) ∧
        ((c :: cs).drop 2).all isPySpace then
      some acc.reverse
    else boldMidGo (c :: acc) cs

/-- The `group(1)` capture of `BOLD_HEADING_PATTERN` on one line, if the line matches. -/
def boldContent (l : Str) : Option Str :=
  let rest := l.dropWhile isPySpace
  match rest with
  | '*' :: '*' :: s => boldMidGo [] s
  | _ => none

/-- Model of `_promote_bold_headings`, acting on one line. -/
def promoteLine (l : Str) : Str :=
  match boldContent l with
  | some mid =>
    let t := pyStrip mid
    if t = [] then l else "### ".data ++ t
  | none => l

theorem length_dropWhile_le {α : Type} (p : α → Bool) (l : List α) :
    (l.dropWhile p).length ≤ l.length := by
  induction l with
  | nil => simp [List.dropWhile]
  | cons c cs ih =>
    by_cases h : p c
    · simpa [List.dropWhile, h] using Nat.le_succ_of_le ih
    · simp [List.dropWhile, h]

/-- Worker for `lineBlocks`, structurally recursive on a fuel argument
kept strictly larger than the number of remaining lines. -/
def lineBlocksGo (hd : Str → Bool) : Nat → List Str → List (Str × List Str)
  | 0, _ => []
  | _ + 1, [] => []
  | fuel + 1, l :: ls =>
    if hd l then
      (l, ls.takeWhile (fun x => !hd x)) ::
        lineBlocksGo hd fuel (ls.dropWhile (fun x => !hd x))
    else lineBlocksGo hd fuel ls

/-- Split a list of lines into blocks delimited by lines satisfying `hd`:
each block is (delimiter line, lines until the next delimiter).  Lines
before the first delimiter are discarded, matching `finditer` slicing. -/
def lineBlocks (hd : Str → Bool) (lines : List Str) : List (Str × List Str) :=
  lineBlocksGo hd (lines.length + 1) lines

theorem lineBlocksGo_fuel (hd : Str → Bool) : ∀ (f1 : Nat) (lines : List Str)
    (f2 : Nat), lines.length < f1 → lines.length < f2 →
    lineBlocksGo hd f1 lines = lineBlocksGo hd f2 lines := by
  intro f1
  induction f1 with
  | zero => intro lines f2 h; omega
  | succ f ih =>
    intro lines f2 h1 h2
    cases f2 with
    | zero => omega
    | succ f2' =>
      cases lines with
      | nil => rfl
      | cons l ls =>
        simp only [List.length_cons] at h1 h2
        by_cases hl : hd l
        · simp only [lineBlocksGo, if_pos hl]
          rw [ih (ls.dropWhile (fun x => !hd x)) f2'
            (Nat.lt_of_le_of_lt (length_dropWhile_le _ _) (by omega))
            (Nat.lt_of_le_of_lt (length_dropWhile_le _ _) (by omega))]
        · simp only [lineBlocksGo, if_neg hl]
          rw [ih ls f2' (by omega) (by omega)]

theorem lineBlocks_nil (hd : Str → Bool) : lineBlocks hd [] = [] := rfl

theorem lineBlocks_cons (hd : Str → Bool) (l : Str) (ls : List Str) :
    lineBlocks hd (l :: ls) =
      if hd l then
        (l, ls.takeWhile (fun x => !hd x)) ::
          lineBlocks hd (ls.dropWhile (fun x => !hd x))
      else lineBlocks hd ls := by
  unfold lineBlocks
  by_cases hl : hd l
  · simp only [List.length_cons, lineBlocksGo, if_pos hl]
    rw [lineBlocksGo_fuel hd (ls.length + 1) _ _
      (Nat.lt_succ_of_le (length_dropWhile_le _ _))
      (Nat.lt_succ_of_le (Nat.le_refl _))]
  · simp only [List.length_cons, lineBlocksGo, if_neg hl]

/-- Model of `_split_subsections` from `df12_pages/markdown_parser.py`: promote
bold-only lines, then split the body on level-3 heading lines. -/
def splitSubsections (body : Str) : Str × List Subsection :=
  let lines := (splitNl body).map promoteLine
  if lines.all (fun l => !isSubsectionLine l) then ([], [])
  else
    let intro := pyStrip (joinNl (lines.takeWhile (fun l => !isSubsectionLine l)))
    let blocks := lineBlocks isSubsectionLine lines
    (intro, blocks.map (fun b =>
      { title := cleanHeading (subsectionTitleRaw b.1)
        markdown := pyStrip (joinNl b.2) }))

/-- The per-section work of `parse_sections`' loop, threading the
used-slug set and the 1-based order counter. -/
def buildSections : List (Str × List Str) → List Str → Nat → List Section
  | [], _, _ => []
  | (titleLine, bodyLines) :: rest, used, k =>
    let heading := cleanHeading (sectionTitleRaw titleLine)
    let shortT := pyStrip (stripLeadingNumber heading)
    let slug := uniqueSlug (slugify heading) used
    let body := pyStrip (joinNl bodyLines)
    let (intro, subs) := splitSubsections body
    { title := heading
      short_title := if shortT = [] then heading else shortT
      slug := slug
      order := k
      markdown := body
      intro_markdown := intro
      subsections := subs } :: buildSections rest (slug :: used) (k + 1)

/-- Model of `parse_sections` from `df12_pages/markdown_parser.py`. -/
def parseSections (markdownText : Str) : List Section :=
  buildSections (lineBlocks isSectionLine (splitNl markdownText)) [] 1

/-! ## The older parser variant (`scripts/netsuke_docs/markdown_parser.py`)

Identical except that it performs no bold-line promotion and, when a body
has no subsection headings, returns the *stripped body* (not the empty
string) as the intro. -/

/-- Model of `_split_subsections` from `scripts/netsuke_docs/markdown_parser.py`. -/
def netsukeSplitSubsections (body : Str) : Str × List Subsection :=
  let lines := splitNl body
  if lines.all (fun l => !isSubsectionLine l) then (pyStrip body, [])
  else
    let intro := pyStrip (joinNl (lines.takeWhile (fun l => !isSubsectionLine l)))
    let blocks := lineBlocks isSubsectionLine lines
    (intro, blocks.map (fun b =>
      { title := cleanHeading (subsectionTitleRaw b.1)
        markdown := pyStrip (joinNl b.2) }))

def netsukeBuildSections : List (Str × List Str) → List Str → Nat → List Section
  | [], _, _ => []
  | (titleLine, bodyLines) :: rest, used, k =>
    let heading := cleanHeading (sectionTitleRaw titleLine)
    let shortT := pyStrip (stripLeadingNumber heading)
    let slug := uniqueSlug (slugify heading) used
    let body := pyStrip (joinNl bodyLines)
    let (intro, subs) := netsukeSplitSubsections body
    { title := heading
      short_title := if shortT = [] then heading else shortT
      slug := slug
      order := k
      markdown := body
      intro_markdown := intro
      subsections := subs } :: netsukeBuildSections rest (slug :: used) (k + 1)

/-- Model of `parse_sections` from `scripts/netsuke_docs/markdown_parser.py`. -/
def netsukeParseSections (markdownText : Str) : List Section :=
  netsukeBuildSections (lineBlocks isSectionLine (splitNl markdownText)) [] 1

/-! ## Helper lemmas about trimming and the parser's structure -/

theorem dropWhile_dropWhile {α : Type} (p : α → Bool) (l : List α) :
    (l.dropWhile p).dropWhile p = l.dropWhile p := by
  induction l with
  | nil => rfl
  | cons c cs ih =>
    by_cases h : p c
    · simp [List.dropWhile, h, ih]
    · simp [List.dropWhile, h]

theorem dropWhile_head_false {α : Type} (p : α → Bool) (l : List α) (c : α)
    (t : List α) (h : l.dropWhile p = c :: t) : p c = false := by
  induction l with
  | nil => simp [List.dropWhile] at h
  | cons a as ih =>
    by_cases ha : p a
    · simp only [List.dropWhile, ha] at h; exact ih h
    · simp only [List.dropWhile, ha, if_false] at h
      injection h with h1 h2
      rw [← h1]
      simpa using ha

/-- Left trim. -/
def ltrim (s : Str) : Str := s.dropWhile isPySpace

/-- Right trim. -/
def rtrim (s : Str) : Str := (s.reverse.dropWhile isPySpace).reverse

theorem pyStrip_eq_rtrim_ltrim (s : Str) : pyStrip s = rtrim (ltrim s) := rfl

theorem ltrim_idem (s : Str) : ltrim (ltrim s) = ltrim s :=
  dropWhile_dropWhile _ s

theorem rtrim_idem (s : Str) : rtrim (rtrim s) = rtrim s := by
  unfold rtrim
  rw [List.reverse_reverse, dropWhile_dropWhile]

theorem rtrim_append_rest (s : Str) : ∃ u, s = rtrim s ++ u := by
  refine ⟨(s.reverse.takeWhile isPySpace).reverse, ?_⟩
  unfold rtrim
  rw [← List.reverse_append, List.takeWhile_append_dropWhile, List.reverse_reverse]

theorem ltrim_rtrim_ltrim (s : Str) :
    ltrim (rtrim (ltrim s)) = rtrim (ltrim s) := by
  rcases h : rtrim (ltrim s) with _ | ⟨c, t⟩
  · rfl
  · obtain ⟨u, hu⟩ := rtrim_append_rest (ltrim s)
    rw [h] at hu
    have hc : isPySpace c = false := by
      rcases hl : ltrim s with _ | ⟨c', t'⟩
      · rw [hl] at hu; simp at hu
      · have := dropWhile_head_false isPySpace s c' t' hl
        rw [hl] at hu
        have : c = c' := by
          have := congrArg (List.head? ·) hu
          simpa using this.symm
        rw [this]
        exact dropWhile_head_false isPySpace s c' t' hl
    show List.dropWhile _ (c :: t) = c :: t
    simp [List.dropWhile, hc]

theorem pyStrip_idem (s : Str) : pyStrip (pyStrip s) = pyStrip s := by
  rw [pyStrip_eq_rtrim_ltrim, pyStrip_eq_rtrim_ltrim, ltrim_rtrim_ltrim, rtrim_idem]

theorem pyStrip_of_stripped (s : Str) (h : ∃ t, s = pyStrip t) :
    pyStrip s = s := by
  obtain ⟨t, rfl⟩ := h; exact pyStrip_idem t

/-! ## Structure of `buildSections` and `lineBlocks` -/

theorem buildSections_mem_fields :
    ∀ (blocks : List (Str × List Str)) (used : List Str) (k : Nat)
      (s : Section), s ∈ buildSections blocks used k →
      (s.intro_markdown, s.subsections) = splitSubsections s.markdown ∧
      (∃ bodyLines, s.markdown = pyStrip (joinNl bodyLines))
  | [], _, _, _, h => by simp [buildSections] at h
  | (titleLine, bodyLines) :: rest, used, k, s, h => by
    simp only [buildSections, List.mem_cons] at h
    rcases h with rfl | h
    · refine ⟨?_, bodyLines, rfl⟩
      simp
    · exact buildSections_mem_fields rest _ _ s h

theorem netsukeBuildSections_mem_fields :
    ∀ (blocks : List (Str × List Str)) (used : List Str) (k : Nat)
      (s : Section), s ∈ netsukeBuildSections blocks used k →
      (s.intro_markdown, s.subsections) = netsukeSplitSubsections s.markdown ∧
      (∃ bodyLines, s.markdown = pyStrip (joinNl bodyLines))
  | [], _, _, _, h => by simp [netsukeBuildSections] at h
  | (titleLine, bodyLines) :: rest, used, k, s, h => by
    simp only [netsukeBuildSections, List.mem_cons] at h
    rcases h with rfl | h
    · refine ⟨?_, bodyLines, rfl⟩
      simp
    · exact netsukeBuildSections_mem_fields rest _ _ s h

theorem lineBlocks_ne_nil (hd : Str → Bool) :
    ∀ (lines : List Str), (∃ l ∈ lines, hd l) →
      lineBlocks hd lines ≠ []
  | [], h => by simp at h
  | l :: ls, h => by
    rw [lineBlocks_cons]
    by_cases hl : hd l
    · simp [hl]
    · rw [if_neg hl]
      obtain ⟨x, hx, hhd⟩ := h
      rcases List.mem_cons.mp hx with rfl | hx
      · exact absurd hhd hl
      · exact lineBlocks_ne_nil hd ls ⟨x, hx, hhd⟩

theorem filter_dropWhile_not {α : Type} (p : α → Bool) :
    ∀ (l : List α), (l.dropWhile (fun x => !p x)).filter p = l.filter p
  | [] => rfl
  | c :: cs => by
    by_cases h : p c
    · simp [List.dropWhile, h]
    · simp [List.dropWhile, h, filter_dropWhile_not p cs, List.filter]

theorem lineBlocks_length (hd : Str → Bool) :
    ∀ (lines : List Str),
      (lineBlocks hd lines).length = (lines.filter hd).length
  | [] => by simp [lineBlocks_nil]
  | l :: ls => by
    rw [lineBlocks_cons]
    by_cases hl : hd l
    · rw [if_pos hl]
      simp only [List.length_cons]
      rw [lineBlocks_length hd (ls.dropWhile (fun x => !hd x))]
      have := filter_dropWhile_not hd ls
      simp [this, List.filter, hl]
    · rw [if_neg hl]
      rw [lineBlocks_length hd ls]
      simp [List.filter, hl]
  termination_by lines => lines.length
  decreasing_by
    · exact Nat.lt_succ_of_le (length_dropWhile_le _ _)
    · simp

theorem buildSections_length :
    ∀ (blocks : List (Str × List Str)) (used : List Str) (k : Nat),
      (buildSections blocks used k).length = blocks.length
  | [], _, _ => rfl
  | b :: rest, used, k => by
    simp only [buildSections, List.length_cons]
    rw [buildSections_length rest]

/-! ## Injectivity of decimal rendering and slug freshness -/

theorem natDigits_lt {n : Nat} (h : n < 10) :
    natDigits n = [Char.ofNat (48 + n)] := by
  unfold natDigits natDigitsGo
  rw [if_pos h]

theorem natDigits_ge {n : Nat} (h : ¬ n < 10) :
    natDigits n = natDigits (n / 10) ++ [Char.ofNat (48 + n % 10)] := by
  unfold natDigits
  show natDigitsGo (n + 1) n = _
  have hub : n / 10 < n := Nat.div_lt_self (by omega) (by omega)
  rw [show natDigitsGo (n + 1) n =
      (if n < 10 then [Char.ofNat (48 + n)]
       else natDigitsGo n (n / 10) ++ [Char.ofNat (48 + n % 10)]) from rfl,
    if_neg h, natDigitsGo_fuel n (n / 10) (n / 10 + 1) (by omega) (by omega)]

theorem natDigits_ne_nil (n : Nat) : natDigits n ≠ [] := by
  by_cases h : n < 10
  · rw [natDigits_lt h]; simp
  · rw [natDigits_ge h]; simp

theorem digitChar_inj : ∀ x < 10, ∀ y < 10,
    Char.ofNat (48 + x) = Char.ofNat (48 + y) → x = y := by decide

theorem natDigits_length_pos (n : Nat) : 0 < (natDigits n).length := by
  cases hd : natDigits n with
  | nil => exact absurd hd (natDigits_ne_nil n)
  | cons x xs => simp

theorem natDigits_inj : ∀ a b : Nat, natDigits a = natDigits b → a = b := by
  intro a
  induction a using Nat.strong_induction_on with
  | _ a ih =>
    intro b h
    by_cases ha : a < 10 <;> by_cases hb : b < 10
    · rw [natDigits_lt ha, natDigits_lt hb] at h
      injection h with h1 _
      exact digitChar_inj a ha b hb h1
    · rw [natDigits_lt ha, natDigits_ge hb] at h
      have hlen : (1 : Nat) = (natDigits (b / 10)).length + 1 := by
        simpa using congrArg List.length h
      have := natDigits_length_pos (b / 10)
      omega
    · rw [natDigits_ge ha, natDigits_lt hb] at h
      have hlen : (natDigits (a / 10)).length + 1 = 1 := by
        simpa using congrArg List.length h
      have := natDigits_length_pos (a / 10)
      omega
    · rw [natDigits_ge ha, natDigits_ge hb] at h
      have h' := congrArg List.reverse h
      simp only [List.reverse_append, List.reverse_cons, List.reverse_nil,
        List.nil_append, List.cons_append] at h'
      injection h' with h1 h2
      have hdiv : a / 10 = b / 10 := by
        have heq : natDigits (a / 10) = natDigits (b / 10) := by
          have := congrArg List.reverse h2
          simpa using this
        exact ih (a / 10) (Nat.div_lt_self (by omega) (by omega)) _ heq
      have hmod : a % 10 = b % 10 :=
        digitChar_inj (a % 10) (Nat.mod_lt _ (by omega))
          (b % 10) (Nat.mod_lt _ (by omega)) h1
      omega

theorem slugCandidate_inj (base : Str) :
    ∀ j k : Nat, slugCandidate base j = slugCandidate base k → j = k := by
  intro j k h
  unfold slugCandidate at h
  by_cases hj : j = 0 <;> by_cases hk : k = 0
  · omega
  · rw [if_pos hj, if_neg hk] at h
    have := congrArg List.length h
    simp [List.length_append] at this
  · rw [if_neg hj, if_pos hk] at h
    have := congrArg List.length h
    simp [List.length_append] at this
  · rw [if_neg hj, if_neg hk] at h
    have := List.append_cancel_left h
    injection this with h1 h2
    have := natDigits_inj _ _ h2
    omega

theorem uniqueSlugGo_fresh (base : Str) (used : List Str) :
    ∀ (fuel k : Nat),
      (∃ j, j < fuel ∧ slugCandidate base (k + j) ∉ used) →
      uniqueSlugGo base used fuel k ∉ used
  | 0, k, h => by
    obtain ⟨j, hj, _⟩ := h
    omega
  | fuel + 1, k, h => by
    rw [uniqueSlugGo]
    by_cases hc : slugCandidate base k ∈ used
    · simp only [hc, if_true]
      obtain ⟨j, hj, hfree⟩ := h
      have hj0 : j ≠ 0 := by
        intro h0
        rw [h0] at hfree
        simp at hfree
        exact hfree hc
      exact uniqueSlugGo_fresh base used fuel (k + 1)
        ⟨j - 1, by omega, by
          have : k + 1 + (j - 1) = k + j := by omega
          rw [this]; exact hfree⟩
    · rw [if_neg hc]; exact hc

theorem uniqueSlug_fresh (base : Str) (used : List Str) :
    uniqueSlug base used ∉ used := by
  apply uniqueSlugGo_fresh
  by_contra hall
  push_neg at hall
  have hmem : ∀ j < used.length + 1, slugCandidate base j ∈ used := by
    intro j hj
    simpa using hall j hj
  have hsub : (Finset.range (used.length + 1)).image (slugCandidate base)
      ⊆ used.toFinset := by
    intro x hx
    simp only [Finset.mem_image, Finset.mem_range] at hx
    obtain ⟨j, hj, rfl⟩ := hx
    exact List.mem_toFinset.mpr (hmem j hj)
  have hcard := Finset.card_le_card hsub
  rw [Finset.card_image_of_injective _ (fun a b => slugCandidate_inj base a b),
    Finset.card_range] at hcard
  have := used.toFinset_card_le
  omega

/-! ## Case analysis of `splitSubsections` -/

theorem splitSubsections_of_subs_nil (body : Str)
    (h : (splitSubsections body).2 = []) : splitSubsections body = ([], []) := by
  unfold splitSubsections
  by_cases hall : ((splitNl body).map promoteLine).all (fun l => !isSubsectionLine l)
  · rw [if_pos hall]
  · exfalso
    unfold splitSubsections at h
    rw [if_neg hall] at h
    simp only at h
    have hex : ∃ l ∈ (splitNl body).map promoteLine, isSubsectionLine l := by
      by_contra hno
      push_neg at hno
      exact hall (List.all_eq_true.mpr (by
        intro x hx
        simpa using hno x hx))
    have := lineBlocks_ne_nil isSubsectionLine _ hex
    rcases hb : lineBlocks isSubsectionLine ((splitNl body).map promoteLine) with _ | ⟨b, bs⟩
    · exact this hb
    · rw [hb] at h
      simp at h

theorem netsukeSplitSubsections_of_subs_nil (body : Str)
    (h : (netsukeSplitSubsections body).2 = []) :
    netsukeSplitSubsections body = (pyStrip body, []) := by
  unfold netsukeSplitSubsections
  by_cases hall : (splitNl body).all (fun l => !isSubsectionLine l)
  · rw [if_pos hall]
  · exfalso
    unfold netsukeSplitSubsections at h
    rw [if_neg hall] at h
    simp only at h
    have hex : ∃ l ∈ splitNl body, isSubsectionLine l := by
      by_contra hno
      push_neg at hno
      exact hall (List.all_eq_true.mpr (by
        intro x hx
        simpa using hno x hx))
    have := lineBlocks_ne_nil isSubsectionLine _ hex
    rcases hb : lineBlocks isSubsectionLine (splitNl body) with _ | ⟨b, bs⟩
    · exact this hb
    · rw [hb] at h
      simp at h

theorem buildSections_slug_invariant :
    ∀ (blocks : List (Str × List Str)) (used : List Str) (k : Nat),
      ((buildSections blocks used k).map Section.slug).Nodup ∧
      ∀ sl ∈ (buildSections blocks used k).map Section.slug, sl ∉ used
  | [], _, _ => by simp [buildSections]
  | (titleLine, bodyLines) :: rest, used, k => by
    simp only [buildSections, List.map_cons, List.nodup_cons, List.mem_cons]
    set base := slugify (cleanHeading (sectionTitleRaw titleLine)) with hbase
    set s0 := uniqueSlug base used with hs0
    obtain ⟨ihnodup, ihused⟩ := buildSections_slug_invariant rest (s0 :: used) (k + 1)
    refine ⟨⟨?_, ihnodup⟩, ?_⟩
    · intro hmem
      have := ihused s0 hmem
      simp at this
    · intro sl hsl
      rcases hsl with rfl | hsl
      · exact uniqueSlug_fresh base used
      · intro hin
        exact ihused sl hsl (List.mem_cons_of_mem _ hin)

theorem buildSections_map_markdown :
    ∀ (blocks : List (Str × List Str)) (used : List Str) (k : Nat),
      (buildSections blocks used k).map Section.markdown
        = blocks.map (fun b => pyStrip (joinNl b.2))
  | [], _, _ => rfl
  | (titleLine, bodyLines) :: rest, used, k => by
    simp only [buildSections, List.map_cons]
    rw [buildSections_map_markdown rest]

/-- A default `Section` value (used only to state closed witnesses). -/
def sec0 : Section := ⟨[], [], [], 0, [], [], []⟩

/-- C1 (counterexample): on `"## Alpha\nBody text"`, `parse_sections` of
`df12_pages/markdown_parser.py` returns one section whose `subsections`
are empty and whose trimmed body (`markdown`) is `"Body text"`, yet its
`intro_markdown` is the empty string, not the trimmed body — refuting the
claim that a zero-subsection section has `intro_markdown` equal to its
entire trimmed body. -/
theorem C1_counterexample :
    (parseSections "## Alpha\nBody text".data).map
        (fun s => (s.intro_markdown, s.markdown, s.subsections))
      = [(([] : Str), "Body text".data, ([] : List Subsection))] ∧
    "Body text".data ≠ ([] : Str) := by
  constructor
  · rfl
  · decide

/-- C1 (amended): in `df12_pages/markdown_parser.py`, a section with zero
subsections has `intro_markdown` equal to the **empty string** (the older
`scripts/netsuke_docs` variant instead returns the full trimmed body);
`parse_sections` always returns exactly one section per level-2 heading
line; and a section whose body has no level-3 heading lines and no
promotable bold-only lines gets `subsections = []` and empty
`intro_markdown`. -/
theorem C1_amended :
    (∀ (md : Str) (s : Section), s ∈ parseSections md →
      s.subsections = [] → s.intro_markdown = []) ∧
    (∀ (md : Str) (s : Section), s ∈ netsukeParseSections md →
      s.subsections = [] → s.intro_markdown = s.markdown) ∧
    (∀ md : Str, (parseSections md).length
      = ((splitNl md).filter isSectionLine).length) ∧
    (∀ (md : Str) (s : Section), s ∈ parseSections md →
      ((splitNl s.markdown).map promoteLine).all (fun l => !isSubsectionLine l) →
      s.subsections = [] ∧ s.intro_markdown = []) := by
  refine ⟨?_, ?_, ?_, ?_⟩
  · intro md s hmem hsub
    obtain ⟨hfields, -⟩ := buildSections_mem_fields _ _ _ s hmem
    have h2 : (splitSubsections s.markdown).2 = [] := by
      rw [← hfields]; exact hsub
    have := splitSubsections_of_subs_nil s.markdown h2
    rw [this] at hfields
    exact (Prod.mk.injEq _ _ _ _).mp hfields |>.1
  · intro md s hmem hsub
    obtain ⟨hfields, bodyLines, hbody⟩ :=
      netsukeBuildSections_mem_fields _ _ _ s hmem
    have h2 : (netsukeSplitSubsections s.markdown).2 = [] := by
      rw [← hfields]; exact hsub
    have := netsukeSplitSubsections_of_subs_nil s.markdown h2
    rw [this] at hfields
    have h1 := (Prod.mk.injEq _ _ _ _).mp hfields |>.1
    rw [h1, hbody, pyStrip_idem]
  · intro md
    unfold parseSections
    rw [buildSections_length, lineBlocks_length]
  · intro md s hmem hall
    obtain ⟨hfields, -⟩ := buildSections_mem_fields _ _ _ s hmem
    have : splitSubsections s.markdown = ([], []) := by
      unfold splitSubsections
      rw [if_pos hall]
    rw [this] at hfields
    exact ⟨(Prod.mk.injEq _ _ _ _).mp hfields |>.2,
      (Prod.mk.injEq _ _ _ _).mp hfields |>.1⟩

/-- C1 (witness): the amended statement instantiated on
`"## Alpha\nBody text"`: the single parsed section has no subsections and
empty `intro_markdown` in the `df12_pages` parser, while the
`netsuke_docs` parser returns the full trimmed body as the intro. -/
theorem C1_witness :
    ((parseSections "## Alpha\nBody text".data).headD sec0).subsections = [] ∧
    ((parseSections "## Alpha\nBody text".data).headD sec0).intro_markdown = [] ∧
    ((netsukeParseSections "## Alpha\nBody text".data).headD sec0).intro_markdown
      = ((netsukeParseSections "## Alpha\nBody text".data).headD sec0).markdown :=
  ⟨by decide,
    C1_amended.1 "## Alpha\nBody text".data _ (by decide) (by decide),
    C1_amended.2.1 "## Alpha\nBody text".data _ (by decide) (by decide)⟩

/-- C2: the slugs of the sections returned by `parse_sections` are pairwise
distinct for every document (the used-slug set threaded through
`_unique_slug` guarantees freshness), and two sections with identical
heading text receive `<base>` and `<base>-2`. -/
theorem C2_slug_unique :
    (∀ md : Str, ((parseSections md).map Section.slug).Nodup) ∧
    (parseSections "## Duplicate\nx\n## Duplicate\ny".data).map Section.slug
      = ["duplicate".data, "duplicate-2".data] := by
  constructor
  · intro md
    exact (buildSections_slug_invariant _ [] 1).1
  · rfl

/-- C10: a parsed section's `markdown` field is the trimmed raw text
between its level-2 heading and the next one, with no bold-to-heading
promotion applied (the promotion feeds only `intro_markdown`/`subsections`,
which are exactly `_split_subsections` of the stored body); in particular a
promoted bold-only line still appears as `**Bold**` in `markdown` while
producing a subsection titled `Bold`. -/
theorem C10_markdown_unpromoted :
    (∀ (md : Str) (s : Section), s ∈ parseSections md →
      (s.intro_markdown, s.subsections) = splitSubsections s.markdown) ∧
    (∀ md : Str, (parseSections md).map Section.markdown
      = (lineBlocks isSectionLine (splitNl md)).map
          (fun b => pyStrip (joinNl b.2))) ∧
    (parseSections "## T\nintro here\n\n**Bold**\nafter text".data).map
        (fun s => (s.markdown, s.subsections))
      = [("intro here\n\n**Bold**\nafter text".data,
          [⟨"Bold".data, "after text".data⟩])] := by
  refine ⟨?_, ?_, ?_⟩
  · intro md s hmem
    exact (buildSections_mem_fields _ _ _ s hmem).1
  · intro md
    unfold parseSections
    rw [buildSections_map_markdown]
  · rfl

/-- C10 (witness): the general field relation instantiated on the
bold-promotion example document. -/
theorem C10_witness :
    (((parseSections "## T\nintro here\n\n**Bold**\nafter text".data).headD
        sec0).intro_markdown,
     ((parseSections "## T\nintro here\n\n**Bold**\nafter text".data).headD
        sec0).subsections)
      = splitSubsections
          ((parseSections "## T\nintro here\n\n**Bold**\nafter text".data).headD
            sec0).markdown :=
  C10_markdown_unpromoted.1 "## T\nintro here\n\n**Bold**\nafter text".data _
    (by decide)

/-! ## Fenced-code-block scanning (`renderer.py`, `CODE_BLOCK_PATTERN`)

Model of `re.finditer` with
`CODE_BLOCK_PATTERN = ```([A-Za-z0-9_+#.-]+)?[^\n]*\n(.*?)``` ` (DOTALL):
at each position the engine tries to match an opening triple backtick, a
greedy optional language token, the greedy remainder of the fence line, a
newline, then the shortest body up to the next closing triple backtick;
on failure it advances one character, on success it resumes after the
match. -/

/-- Character class `[A-Za-z0-9_+#.-]` of the fence language token. -/
def isLangChar (c : Char) : Bool :=
  c.isAlpha || c.isDigit || c = '_' || c = '+' || c = '#' || c = '.' || c = '-'

/-- One scanned fence: `group(1)` (language token, if any) and `group(2)`
(the body between the fence line's newline and the closing backticks). -/
structure Fence where
  lang : Option Str
  code : Str
deriving Repr, DecidableEq

/-- Test for a leading triple backtick. -/
def startsTicks (s : Str) : Bool := s.take 3 == ['`', '`', '`']

theorem startsTicks_eq (s : Str) (h : startsTicks s = true) :
    s = '`' :: '`' :: '`' :: s.drop 3 := by
  have h3 : s.take 3 = ['`', '`', '`'] := by
    simpa [startsTicks] using h
  conv_lhs => rw [← List.take_append_drop 3 s]
  rw [h3]
  rfl

/-- Split a string at the first (leftmost) occurrence of three backticks:
exactly what the lazy `(.*?)` followed by three literal backticks finds. -/
def splitTriple : Str → Option (Str × Str)
  | [] => none
  | c :: cs =>
    if startsTicks (c :: cs) then some ([], cs.drop 2)
    else
      match splitTriple cs with
      | some (a, b) => some (c :: a, b)
      | none => none

theorem splitTriple_recon : ∀ (s a b : Str), splitTriple s = some (a, b) →
    s = a ++ '`' :: '`' :: '`' :: b := by
  intro s
  induction s with
  | nil => intro a b h; simp [splitTriple] at h
  | cons c cs ih =>
    intro a b h
    rw [splitTriple] at h
    by_cases ht : startsTicks (c :: cs)
    · rw [if_pos ht] at h
      injection h with h1
      obtain ⟨ha, hb⟩ := Prod.mk.injEq .. |>.mp h1
      rw [← ha, ← hb]
      simpa using startsTicks_eq (c :: cs) ht
    · rw [if_neg ht] at h
      rcases hrec : splitTriple cs with _ | ⟨a', b'⟩
      · rw [hrec] at h
        exact Option.noConfusion h
      · rw [hrec] at h
        injection h with h1
        obtain ⟨ha, hb⟩ := Prod.mk.injEq .. |>.mp h1
        rw [← ha, ← hb]
        simpa using ih a' b' hrec

/-- The fence-line language token run (`group(1)`, greedy `[...]+`). -/
def fenceLang (s : Str) : Str := (s.drop 3).takeWhile isLangChar

/-- Rest of the input after the language token. -/
def fenceAfterLang (s : Str) : Str := (s.drop 3).dropWhile isLangChar

/-- The greedy `[^\n]*` remainder of the fence line. -/
def fenceInfo (s : Str) : Str := (fenceAfterLang s).takeWhile (fun c => !(c = '\n'))

/-- What follows the fence line's text (either empty or begins with the
newline required by the pattern). -/
def fenceTail (s : Str) : Str := (fenceAfterLang s).dropWhile (fun c => !(c = '\n'))

/-- Try to match `CODE_BLOCK_PATTERN` at the start of `s`; on success
return the matched text, the fence groups, and the rest of the input.
The pattern requires a newline after the fence line: `fenceTail s`, being
a `dropWhile (· ≠ '\n')`, is either empty (no newline left — no match) or
starts with that newline, after which the lazy body runs to the first
closing triple backtick. -/
def matchFenceAt (s : Str) : Option (Str × Fence × Str) :=
  if startsTicks s then
    if fenceTail s = [] then none
    else
      match splitTriple ((fenceTail s).drop 1) with
      | some (code, post) =>
        some ('`' :: '`' :: '`' ::
            (fenceLang s ++ fenceInfo s ++ '\n' :: (code ++ ['`', '`', '`'])),
          ⟨if fenceLang s = [] then none else some (fenceLang s), code⟩, post)
      | none => none
  else none

theorem fenceTail_head (s : Str) (h : fenceTail s ≠ []) :
    fenceTail s = '\n' :: (fenceTail s).drop 1 := by
  rcases htail : fenceTail s with _ | ⟨c0, r3⟩
  · exact absurd htail h
  · have hc0 : c0 = '\n' := by
      have := dropWhile_head_false (fun c => !(c = '\n')) (fenceAfterLang s)
        c0 r3 htail
      simpa using this
    rw [hc0]
    rfl

theorem matchFenceAt_recon (s m : Str) (f : Fence) (post : Str)
    (h : matchFenceAt s = some (m, f, post)) :
    s = m ++ post ∧ m ≠ [] := by
  unfold matchFenceAt at h
  by_cases ht : startsTicks s
  · rw [if_pos ht] at h
    by_cases htail : fenceTail s = []
    · rw [if_pos htail] at h
      exact Option.noConfusion h
    · rw [if_neg htail] at h
      rcases hs : splitTriple ((fenceTail s).drop 1) with _ | ⟨code, post'⟩
      · rw [hs] at h
        exact Option.noConfusion h
      · rw [hs] at h
        injection h with h1
        obtain ⟨hm, h2⟩ := Prod.mk.injEq .. |>.mp h1
        obtain ⟨hf, hpost⟩ := Prod.mk.injEq .. |>.mp h2
        constructor
        · rw [← hm, ← hpost]
          have h0 := startsTicks_eq s ht
          have h1' : s.drop 3 = fenceLang s ++ fenceAfterLang s :=
            (List.takeWhile_append_dropWhile ..).symm
          have h2' : fenceAfterLang s = fenceInfo s ++ fenceTail s :=
            (List.takeWhile_append_dropWhile ..).symm
          have h3' : (fenceTail s).drop 1 = code ++ '`' :: '`' :: '`' :: post' :=
            splitTriple_recon _ code post' hs
          conv_lhs => rw [h0, h1', h2', fenceTail_head s htail, h3']
          simp
        · rw [← hm]; simp
  · rw [if_neg ht] at h
    exact Option.noConfusion h

theorem matchFenceAt_post_lt (s m : Str) (f : Fence) (post : Str)
    (h : matchFenceAt s = some (m, f, post)) : post.length < s.length := by
  obtain ⟨hrecon, hne⟩ := matchFenceAt_recon s m f post h
  rw [hrecon, List.length_append]
  cases hm : m with
  | nil => exact absurd hm hne
  | cons x xs => simp

/-- One scanner segment: the gap text before a match, the matched text,
and the fence groups. -/
structure Seg where
  gap : Str
  matched : Str
  fence : Fence
deriving Repr, DecidableEq

/-- Scanner worker (fuel strictly greater than the remaining length):
returns the matched segments and the trailing text after the last match. -/
def scanGo : Nat → Str → List Seg × Str
  | 0, s => ([], s)
  | fuel + 1, s =>
    match matchFenceAt s with
    | some (m, f, post) =>
      let r := scanGo fuel post
      (⟨[], m, f⟩ :: r.1, r.2)
    | none =>
      match s with
      | [] => ([], [])
      | c :: cs =>
        let r := scanGo fuel cs
        match r.1 with
        | [] => ([], c :: r.2)
        | seg :: t => (⟨c :: seg.gap, seg.matched, seg.fence⟩ :: t, r.2)

/-- Model of `list(CODE_BLOCK_PATTERN.finditer(s))`, keeping the text
between and after matches so positions can be reconstructed. -/
def scanFences (s : Str) : List Seg × Str := scanGo (s.length + 1) s

theorem scanGo_fuel : ∀ (f1 : Nat) (s : Str) (f2 : Nat),
    s.length < f1 → s.length < f2 → scanGo f1 s = scanGo f2 s := by
  intro f1
  induction f1 with
  | zero => intro s f2 h; omega
  | succ f ih =>
    intro s f2 h1 h2
    cases f2 with
    | zero => omega
    | succ f2' =>
      rcases hm : matchFenceAt s with _ | ⟨m, fc, post⟩
      · cases s with
        | nil => simp [scanGo, hm]
        | cons c cs =>
          simp only [List.length_cons] at h1 h2
          simp only [scanGo, hm]
          rw [ih cs f2' (by omega) (by omega)]
      · have hlt := matchFenceAt_post_lt s m fc post hm
        simp only [scanGo, hm]
        rw [ih post f2' (by omega) (by omega)]

theorem scanGo_succ (fuel : Nat) (s : Str) :
    scanGo (fuel + 1) s =
      match matchFenceAt s with
      | some (m, f, post) =>
        (⟨[], m, f⟩ :: (scanGo fuel post).1, (scanGo fuel post).2)
      | none =>
        match s with
        | [] => ([], [])
        | c :: cs =>
          match (scanGo fuel cs).1 with
          | [] => ([], c :: (scanGo fuel cs).2)
          | seg :: t =>
            (⟨c :: seg.gap, seg.matched, seg.fence⟩ :: t, (scanGo fuel cs).2) := rfl

theorem scanFences_nil : scanFences [] = ([], []) := rfl

theorem scanFences_eq_match (s m : Str) (f : Fence) (post : Str)
    (h : matchFenceAt s = some (m, f, post)) :
    scanFences s = (⟨[], m, f⟩ :: (scanFences post).1, (scanFences post).2) := by
  have hlt := matchFenceAt_post_lt s m f post h
  unfold scanFences
  rw [scanGo_succ, h]
  dsimp only
  rw [scanGo_fuel s.length post (post.length + 1) hlt (by omega)]

theorem scanFences_eq_skip (c : Char) (cs : Str)
    (h : matchFenceAt (c :: cs) = none) :
    scanFences (c :: cs) =
      match (scanFences cs).1 with
      | [] => ([], c :: (scanFences cs).2)
      | seg :: t =>
        (⟨c :: seg.gap, seg.matched, seg.fence⟩ :: t, (scanFences cs).2) := by
  unfold scanFences
  simp only [List.length_cons]
  rw [scanGo_succ, h]

/-- Text reconstruction: a segment contributes its gap and matched text. -/
def segsText (segs : List Seg) : Str :=
  (segs.map (fun seg => seg.gap ++ seg.matched)).flatten

theorem scanFences_recon_aux : ∀ (n : Nat) (s : Str), s.length ≤ n →
    s = segsText (scanFences s).1 ++ (scanFences s).2 := by
  intro n
  induction n with
  | zero =>
    intro s h
    have hnil : s = [] := by
      cases s with
      | nil => rfl
      | cons c cs => simp at h
    subst hnil
    rfl
  | succ n ih =>
    intro s hlen
    rcases hm : matchFenceAt s with _ | ⟨m, fc, post⟩
    · cases s with
      | nil => rfl
      | cons c cs =>
        have hcs := ih cs (by simp at hlen; omega)
        rw [scanFences_eq_skip c cs hm]
        rcases hp : scanFences cs with ⟨segs, rest⟩
        rw [hp] at hcs
        have hcs' : cs = segsText segs ++ rest := hcs
        cases segs with
        | nil =>
          show c :: cs = segsText [] ++ (c :: rest)
          have : cs = rest := by simpa [segsText] using hcs'
          rw [this]
          rfl
        | cons seg t =>
          show c :: cs
            = segsText (⟨c :: seg.gap, seg.matched, seg.fence⟩ :: t) ++ rest
          simp only [segsText, List.map_cons, List.flatten_cons,
            List.cons_append, List.append_assoc] at hcs' ⊢
          exact congrArg (List.cons c) hcs'
    · have hrec := matchFenceAt_recon s m fc post hm
      have hlt := matchFenceAt_post_lt s m fc post hm
      have hpost := ih post (by omega)
      rw [scanFences_eq_match s m fc post hm]
      simp only [segsText, List.map_cons, List.flatten_cons, List.nil_append,
        List.append_assoc] at hpost ⊢
      conv_lhs => rw [hrec.1]
      rw [← hpost]

theorem scanFences_recon (s : Str) :
    s = segsText (scanFences s).1 ++ (scanFences s).2 :=
  scanFences_recon_aux s.length s (Nat.le_refl _)

/-! ## Page generator (`df12_pages/generator/page_generator.py`)

The HTML renderer (`HtmlContentRenderer.markdown` / `.code_block`, which
delegate to the third-party `markdown` and `pygments` libraries) enters the
generator only as an opaque text-to-text transformation, so the generator
functions below are parameterised by `render : Str → Str` and
`codeRender : Str → Str → Str` (code, language ↦ html). -/

/-- The `SectionLayout` configuration dataclass.  The Python field
`emphasized_code_block : int | None` is modelled as `Option Nat` (the YAML
configurations hold non-negative indices). -/
structure SectionLayout where
  device : Str := "default".data
  step_order : List Str := []
  emphasized_code_block : Option Nat := none
deriving Repr, DecidableEq

/-- One entry of the `numbered_steps` list built by
`_prepare_numbered_steps`. -/
structure Step where
  title : Str
  number : Nat
  html : Str
  anchor : Str
deriving Repr, DecidableEq

/-- One entry of the `subsections` block list built by
`_build_subsection_blocks`. -/
structure SubBlock where
  title : Str
  anchor : Str
  html : Str
deriving Repr, DecidableEq

/-- The render-ready `SectionModel`; `split_panel` is
(primary_html, secondary_html) and `toc_items` are (label, anchor). -/
structure SectionModel where
  title : Str
  short_title : Str
  slug : Str
  order : Nat
  layout : Str
  intro_html : Str
  default_html : Str
  numbered_steps : List Step
  split_panel : Str × Str
  subsections : List SubBlock
  toc_items : List (Str × Str)
deriving Repr, DecidableEq

/-- Model of `PageContentGenerator._slugify` (no numeric-prefix stripping
and no `"section"` fallback, unlike the parser's `_slugify`). -/
def genSlugify (value : Str) : Str :=
  ((collapseGo false (lowerStr value)).dropWhile (· = '-')).reverse
    |>.dropWhile (· = '-') |>.reverse

/-- Model of `PageContentGenerator._unique_anchor`: the same
candidate-suffix loop as `_unique_slug`. -/
def uniqueAnchor (base : Str) (used : List Str) : Str := uniqueSlug base used

/-- Model of `PageContentGenerator._section_anchor`. -/
def sectionAnchor (sectionSlug title : Str) (index : Nat) (used : List Str) :
    Str :=
  let baseTitle := genSlugify title
  let base :=
    if baseTitle ≠ [] then sectionSlug ++ '-' :: baseTitle
    else sectionSlug ++ "-part-".data ++ natDigits index
  uniqueAnchor base used

/-- Loop of `_build_subsection_blocks`, threading the used-anchor set and
the 1-based index. -/
def buildSubBlocksGo (render : Str → Str) (slug : Str) :
    List Subsection → List Str → Nat → List SubBlock
  | [], _, _ => []
  | sub :: rest, used, idx =>
    let anchor := sectionAnchor slug sub.title idx used
    ⟨sub.title, anchor, render sub.markdown⟩ ::
      buildSubBlocksGo render slug rest (anchor :: used) (idx + 1)

/-- Model of `PageContentGenerator._build_subsection_blocks`. -/
def buildSubsectionBlocks (render : Str → Str) (sec : Section) :
    List SubBlock :=
  buildSubBlocksGo render sec.slug sec.subsections [] 1

/-- Last-wins dictionary lookup modelling
`lower_map = {sub.title.lower(): sub for sub in subsections}` followed by
`lower_map.get(key)`. -/
def lowerMapLookup (subs : List Subsection) (key : Str) : Option Subsection :=
  (subs.filter (fun s => lowerStr s.title == key)).getLast?

/-- One iteration of the `for desired in layout.step_order` loop:
`match = lower_map.get(desired.lower()); if match and match not in ordered:
ordered.append(match)`. -/
def stepFoldFun (subs : List Subsection) (acc : List Subsection) (d : Str) :
    List Subsection :=
  match lowerMapLookup subs (lowerStr d) with
  | some m => if m ∈ acc then acc else acc ++ [m]
  | none => acc

/-- The reordering pass of `_prepare_numbered_steps` when `step_order` is
configured: requested titles first (case-insensitive, skipping duplicates
and misses), then all remaining subsections in original order. -/
def orderedSteps (subs : List Subsection) (stepOrder : List Str) :
    List Subsection :=
  subs.foldl (fun acc sub => if sub ∈ acc then acc else acc ++ [sub])
    (stepOrder.foldl (stepFoldFun subs) [])

/-- Enumeration of the final subsection order into steps, with 1-based
numbering and `{slug}-step-{i}` anchors. -/
def enumSteps (render : Str → Str) (slug : Str) :
    List Subsection → Nat → List Step
  | [], _ => []
  | sub :: rest, idx =>
    ⟨sub.title, idx, render sub.markdown,
      slug ++ "-step-".data ++ natDigits idx⟩ ::
      enumSteps render slug rest (idx + 1)

/-- Model of `PageContentGenerator._prepare_numbered_steps`. -/
def prepareNumberedSteps (render : Str → Str) (sec : Section)
    (layout : SectionLayout) : List Step :=
  if sec.subsections = [] then []
  else
    let subs :=
      if layout.step_order = [] then sec.subsections
      else orderedSteps sec.subsections layout.step_order
    enumSteps render sec.slug subs 1

/-- Python `str.strip("\n")`: drop newlines (only) from both ends. -/
def stripNlEdges (s : Str) : Str :=
  ((s.dropWhile (· = '\n')).reverse.dropWhile (· = '\n')).reverse

/-- A junk segment used only as an out-of-range `getD` default. -/
def seg0 : Seg := ⟨[], [], ⟨none, []⟩⟩

/-- Text before the start of the `i`-th fence match (the Python slice
`section.markdown[:match.start()]`). -/
def fenceBefore (segs : List Seg) (i : Nat) : Str :=
  segsText (segs.take i) ++ ((segs.drop i).headD seg0).gap

/-- Text after the end of the `i`-th fence match (the Python slice
`section.markdown[match.end():]`). -/
def fenceAfter (segs : List Seg) (rest : Str) (i : Nat) : Str :=
  segsText (segs.drop (i + 1)) ++ rest

/-- Model of `index = layout.emphasized_code_block or 0` followed by
`if index >= len(matches): index = 0` (absent defaults to 0, out of range
clamps to 0). -/
def splitIndex (layout : SectionLayout) (n : Nat) : Nat :=
  if layout.emphasized_code_block.getD 0 ≥ n then 0
  else layout.emphasized_code_block.getD 0

/-- Model of `PageContentGenerator._prepare_split_panel`. -/
def prepareSplitPanel (render : Str → Str) (codeRender : Str → Str → Str)
    (sec : Section) (layout : SectionLayout) : Str × Str :=
  if (scanFences sec.markdown).1 = [] then (render sec.markdown, [])
  else
    (render (pyStrip
        (fenceBefore (scanFences sec.markdown).1
            (splitIndex layout (scanFences sec.markdown).1.length)
          ++ '\n' :: '\n' ::
          fenceAfter (scanFences sec.markdown).1 (scanFences sec.markdown).2
            (splitIndex layout (scanFences sec.markdown).1.length))),
      codeRender
        (stripNlEdges
          (((scanFences sec.markdown).1.getD
              (splitIndex layout (scanFences sec.markdown).1.length)
              seg0).fence.code))
        ((((scanFences sec.markdown).1.getD
            (splitIndex layout (scanFences sec.markdown).1.length)
            seg0).fence.lang).getD "text".data))

/-- Model of `PageContentGenerator._build_section_model`. -/
def buildSectionModel (render : Str → Str) (codeRender : Str → Str → Str)
    (sec : Section) (layout : SectionLayout) : SectionModel :=
  if layout.device = "numbered_steps".data then
    if prepareNumberedSteps render sec layout = [] then
      { title := sec.title, short_title := sec.short_title, slug := sec.slug,
        order := sec.order, layout := "default".data,
        intro_html := render sec.intro_markdown,
        default_html := render sec.markdown,
        numbered_steps := prepareNumberedSteps render sec layout,
        split_panel := ([], []),
        subsections := buildSubsectionBlocks render sec,
        toc_items := (buildSubsectionBlocks render sec).map
          (fun b => (b.title, b.anchor)) }
    else
      { title := sec.title, short_title := sec.short_title, slug := sec.slug,
        order := sec.order, layout := layout.device,
        intro_html := render sec.intro_markdown,
        default_html := render sec.markdown,
        numbered_steps := prepareNumberedSteps render sec layout,
        split_panel := ([], []),
        subsections := buildSubsectionBlocks render sec,
        toc_items := (prepareNumberedSteps render sec layout).map
          (fun st => (st.title, st.anchor)) }
  else if layout.device = "split_panel".data then
    { title := sec.title, short_title := sec.short_title, slug := sec.slug,
      order := sec.order,
      layout :=
        if (prepareSplitPanel render codeRender sec layout).2 = [] then
          "default".data
        else layout.device,
      intro_html := render sec.intro_markdown,
      default_html := render sec.markdown,
      numbered_steps := [],
      split_panel := prepareSplitPanel render codeRender sec layout,
      subsections := buildSubsectionBlocks render sec,
      toc_items := (buildSubsectionBlocks render sec).map
        (fun b => (b.title, b.anchor)) }
  else
    { title := sec.title, short_title := sec.short_title, slug := sec.slug,
      order := sec.order, layout := layout.device,
      intro_html := render sec.intro_markdown,
      default_html := render sec.markdown,
      numbered_steps := [], split_panel := ([], []),
      subsections := buildSubsectionBlocks render sec,
      toc_items := (buildSubsectionBlocks render sec).map
        (fun b => (b.title, b.anchor)) }

/-- Model of the write-relevant behaviour of `PageContentGenerator.run`:
given the fetched markdown it either fails (zero parsed sections raise a
`RuntimeError` *before* the output directory is created or any file or
metadata sidecar is written) or succeeds returning the HTML file names
written, in section order, plus the metadata sidecar name
(`PAGE_META_TEMPLATE.format(key=...)`, written when at least one HTML file
was). -/
def runModel (filePre pageKey markdownSource : Str) :
    Except Str (List Str × Option Str) :=
  let sections := parseSections markdownSource
  if sections = [] then
    Except.error
      "No second-level sections were found in the upstream markdown.".data
  else
    let written := sections.map (fun s => filePre ++ s.slug ++ ".html".data)
    Except.ok (written,
      if written = [] then none
      else some (".df12-pages-".data ++ pageKey ++ "-meta.json".data))

/-! ## Claims about the generator: C3, C7, C8 -/

/-- C3: when the parser returns zero sections for the fetched document,
`PageContentGenerator.run` raises `RuntimeError` with the fixed message —
before the output directory is created, before any section HTML file is
written, and before the metadata sidecar is written (in the model: the
error carries no written files). -/
theorem C3_zero_sections_abort :
    ∀ (filePre pageKey src : Str), parseSections src = [] →
      runModel filePre pageKey src = Except.error
        "No second-level sections were found in the upstream markdown.".data := by
  intro filePre pageKey src h
  unfold runModel
  rw [h]
  rfl

/-- C3 (witness): a document with no level-2 heading aborts generation. -/
theorem C3_witness :
    runModel "docs-".data "netsuke".data "plain text only".data = Except.error
      "No second-level sections were found in the upstream markdown.".data :=
  C3_zero_sections_abort _ _ _ (by decide)

/-- C7: a configured device that cannot be honoured silently downgrades the
resolved layout to `"default"` (the builder is a total function, so no
error is raised): `numbered_steps` on a section with zero subsections
yields layout `"default"` with an empty steps list, and `split_panel` on a
section whose body has no fenced code block yields layout `"default"`,
empty `secondary_html`, and `primary_html` equal to the rendered full
body. -/
theorem C7_layout_fallback :
    ∀ (render : Str → Str) (codeRender : Str → Str → Str) (sec : Section)
      (layout : SectionLayout),
      (layout.device = "numbered_steps".data → sec.subsections = [] →
        (buildSectionModel render codeRender sec layout).layout
            = "default".data ∧
        (buildSectionModel render codeRender sec layout).numbered_steps = []) ∧
      (layout.device = "split_panel".data →
        (scanFences sec.markdown).1 = [] →
        (buildSectionModel render codeRender sec layout).layout
            = "default".data ∧
        (buildSectionModel render codeRender sec layout).split_panel
            = (render sec.markdown, [])) := by
  intro render codeRender sec layout
  constructor
  · intro hdev hsub
    have hsteps : prepareNumberedSteps render sec layout = [] := by
      unfold prepareNumberedSteps
      rw [if_pos hsub]
    unfold buildSectionModel
    rw [if_pos hdev, if_pos hsteps]
    exact ⟨rfl, hsteps⟩
  · intro hdev hfence
    have hne : ¬ layout.device = "numbered_steps".data := by
      rw [hdev]; decide
    have hsp : prepareSplitPanel render codeRender sec layout
        = (render sec.markdown, []) := by
      unfold prepareSplitPanel
      rw [if_pos hfence]
    unfold buildSectionModel
    rw [if_neg hne, if_pos hdev, hsp]
    exact ⟨by simp, rfl⟩

/-- C7 (witness): both fallbacks instantiated — a subsection-free section
under `numbered_steps`, and a fence-free section under `split_panel`. -/
theorem C7_witness :
    ((buildSectionModel (fun s => s) (fun c _ => c)
        ⟨"T".data, "T".data, "t".data, 1, "plain body".data, [], []⟩
        ⟨"numbered_steps".data, [], none⟩).layout = "default".data ∧
      (buildSectionModel (fun s => s) (fun c _ => c)
        ⟨"T".data, "T".data, "t".data, 1, "plain body".data, [], []⟩
        ⟨"numbered_steps".data, [], none⟩).numbered_steps = []) ∧
    ((buildSectionModel (fun s => s) (fun c _ => c)
        ⟨"T".data, "T".data, "t".data, 1, "plain body".data, [], []⟩
        ⟨"split_panel".data, [], none⟩).layout = "default".data ∧
      (buildSectionModel (fun s => s) (fun c _ => c)
        ⟨"T".data, "T".data, "t".data, 1, "plain body".data, [], []⟩
        ⟨"split_panel".data, [], none⟩).split_panel = ("plain body".data, [])) :=
  ⟨(C7_layout_fallback (fun s => s) (fun c _ => c)
      ⟨"T".data, "T".data, "t".data, 1, "plain body".data, [], []⟩
      ⟨"numbered_steps".data, [], none⟩).1 (by decide) (by decide),
    (C7_layout_fallback (fun s => s) (fun c _ => c)
      ⟨"T".data, "T".data, "t".data, 1, "plain body".data, [], []⟩
      ⟨"split_panel".data, [], none⟩).2 (by decide) (by decide)⟩

theorem segsText_append (a b : List Seg) :
    segsText (a ++ b) = segsText a ++ segsText b := by
  simp [segsText]

theorem drop_eq_getD_cons {α : Type} (d : α) :
    ∀ (l : List α) (i : Nat), i < l.length →
      l.drop i = l.getD i d :: l.drop (i + 1)
  | [], i, h => by simp at h
  | c :: cs, 0, _ => rfl
  | c :: cs, i + 1, h => by
    have := drop_eq_getD_cons d cs i (by simpa using h)
    simpa using this

theorem splitIndex_lt (layout : SectionLayout) (n : Nat) (hn : 0 < n) :
    splitIndex layout n < n := by
  unfold splitIndex
  by_cases h : layout.emphasized_code_block.getD 0 ≥ n
  · rw [if_pos h]; omega
  · rw [if_neg h]; omega

/-- Splicing invariant of the fence scanner: for any in-range index, the
document is exactly the text before the match, the matched fence text, and
the text after the match. -/
theorem fenceSplice (md : Str) (i : Nat)
    (hi : i < (scanFences md).1.length) :
    md = fenceBefore (scanFences md).1 i
      ++ ((scanFences md).1.getD i seg0).matched
      ++ fenceAfter (scanFences md).1 (scanFences md).2 i := by
  have h0 := scanFences_recon md
  have hdrop := drop_eq_getD_cons seg0 (scanFences md).1 i hi
  unfold fenceBefore fenceAfter
  rw [hdrop]
  show md = segsText (List.take i (scanFences md).1)
      ++ ((scanFences md).1.getD i seg0).gap
      ++ ((scanFences md).1.getD i seg0).matched
      ++ (segsText ((scanFences md).1.drop (i + 1)) ++ (scanFences md).2)
  have hsplit : (scanFences md).1
      = (scanFences md).1.take i
        ++ (scanFences md).1.getD i seg0 :: (scanFences md).1.drop (i + 1) := by
    conv_lhs => rw [← List.take_append_drop i (scanFences md).1]
    rw [hdrop]
  conv_lhs => rw [h0, hsplit]
  rw [segsText_append]
  simp [segsText, List.append_assoc]

/-! ## Claim C6: numbered-step reordering -/

/-- Subsections matched by the requested order, in request order: for each
requested title (case-insensitively) the first subsection carrying it. -/
def specMatched (subs : List Subsection) (stepOrder : List Str) :
    List Subsection :=
  stepOrder.filterMap
    (fun d => subs.find? (fun s => lowerStr s.title == lowerStr d))

/-- Subsections whose title matches no requested title, in original order. -/
def specUnmatched (subs : List Subsection) (stepOrder : List Str) :
    List Subsection :=
  subs.filter
    (fun s => !(stepOrder.any (fun d => lowerStr d == lowerStr s.title)))

theorem find?_eq_head_filter {α : Type} (p : α → Bool) :
    ∀ (l : List α), l.find? p = (l.filter p).head?
  | [] => rfl
  | c :: cs => by
    by_cases h : p c
    · rw [List.find?_cons, List.filter_cons]
      simp [h]
    · rw [List.find?_cons, List.filter_cons]
      simp only [h, cond_false, if_neg (by simp [h] : ¬ p c = true)]
      exact find?_eq_head_filter p cs

theorem getLast?_eq_head?_of_short {α : Type} (l : List α)
    (h : l.length ≤ 1) : l.getLast? = l.head? := by
  match l with
  | [] => rfl
  | [x] => rfl
  | x :: y :: t => simp at h

theorem filter_title_short (subs : List Subsection)
    (hT : (subs.map (fun s => lowerStr s.title)).Nodup) (key : Str) :
    (subs.filter (fun s => lowerStr s.title == key)).length ≤ 1 := by
  induction subs with
  | nil => simp
  | cons s rest ih =>
    simp only [List.map_cons, List.nodup_cons] at hT
    by_cases h : lowerStr s.title == key
    · have hrest : rest.filter (fun x => lowerStr x.title == key) = [] := by
        rw [List.filter_eq_nil_iff]
        intro x hx
        intro hkey
        apply hT.1
        have hk : lowerStr x.title = key := by simpa using hkey
        have hs : lowerStr s.title = key := by simpa using h
        exact List.mem_map.mpr ⟨x, hx, hk.trans hs.symm⟩
      simp [List.filter, h, hrest]
    · simpa [List.filter, h] using ih hT.2

theorem lowerMapLookup_eq_find (subs : List Subsection)
    (hT : (subs.map (fun s => lowerStr s.title)).Nodup) (key : Str) :
    lowerMapLookup subs key
      = subs.find? (fun s => lowerStr s.title == key) := by
  unfold lowerMapLookup
  rw [find?_eq_head_filter]
  exact getLast?_eq_head?_of_short _ (filter_title_short subs hT key)

theorem specMatched_mem (subs : List Subsection) (so : List Str)
    (m : Subsection) (h : m ∈ specMatched subs so) :
    m ∈ subs ∧ ∃ d ∈ so, lowerStr m.title = lowerStr d := by
  unfold specMatched at h
  rw [List.mem_filterMap] at h
  obtain ⟨d, hd, hf⟩ := h
  refine ⟨List.mem_of_find?_eq_some hf, d, hd, ?_⟩
  have := List.find?_some hf
  simpa using this

theorem specMatched_cons_none (subs : List Subsection) (d : Str)
    (so : List Str)
    (h : subs.find? (fun s => lowerStr s.title == lowerStr d) = none) :
    specMatched subs (d :: so) = specMatched subs so := by
  simp [specMatched, List.filterMap_cons, h]

theorem specMatched_cons_some (subs : List Subsection) (d : Str)
    (so : List Str) (m : Subsection)
    (h : subs.find? (fun s => lowerStr s.title == lowerStr d) = some m) :
    specMatched subs (d :: so) = m :: specMatched subs so := by
  simp [specMatched, List.filterMap_cons, h]

theorem stepFoldFun_none (subs : List Subsection) (acc : List Subsection)
    (d : Str) (h : lowerMapLookup subs (lowerStr d) = none) :
    stepFoldFun subs acc d = acc := by
  unfold stepFoldFun
  rw [h]

theorem stepFoldFun_some (subs : List Subsection) (acc : List Subsection)
    (d : Str) (m : Subsection)
    (h : lowerMapLookup subs (lowerStr d) = some m) :
    stepFoldFun subs acc d = if m ∈ acc then acc else acc ++ [m] := by
  unfold stepFoldFun
  rw [h]

theorem foldlPre_eq (subs : List Subsection)
    (hT : (subs.map (fun s => lowerStr s.title)).Nodup) :
    ∀ (so : List Str), (so.map lowerStr).Nodup →
    ∀ (acc : List Subsection), (∀ m ∈ specMatched subs so, m ∉ acc) →
      so.foldl (stepFoldFun subs) acc = acc ++ specMatched subs so
  | [], _, acc, _ => by simp [specMatched]
  | d :: rest, hO, acc, hinv => by
    simp only [List.map_cons, List.nodup_cons] at hO
    rw [List.foldl_cons]
    rcases hf : subs.find? (fun s => lowerStr s.title == lowerStr d)
      with _ | m
    · have hl : lowerMapLookup subs (lowerStr d) = none := by
        rw [lowerMapLookup_eq_find subs hT, hf]
      rw [stepFoldFun_none subs acc d hl,
        specMatched_cons_none subs d rest hf]
      rw [specMatched_cons_none subs d rest hf] at hinv
      exact foldlPre_eq subs hT rest hO.2 acc hinv
    · have hl : lowerMapLookup subs (lowerStr d) = some m := by
        rw [lowerMapLookup_eq_find subs hT, hf]
      rw [specMatched_cons_some subs d rest m hf] at hinv
      have hmacc : m ∉ acc := hinv m (List.mem_cons_self m _)
      rw [stepFoldFun_some subs acc d m hl, if_neg hmacc,
        specMatched_cons_some subs d rest m hf]
      have hmd : lowerStr m.title = lowerStr d := by
        simpa using List.find?_some hf
      have hinv' : ∀ m' ∈ specMatched subs rest, m' ∉ acc ++ [m] := by
        intro m' hm'
        obtain ⟨-, d', hd', hm'd⟩ := specMatched_mem subs rest m' hm'
        have hne : m' ≠ m := by
          intro heq
          apply hO.1
          have : lowerStr d = lowerStr d' := by
            rw [← hmd, ← hm'd, heq]
          exact List.mem_map.mpr ⟨d', hd', this.symm⟩
        intro hmem
        rcases List.mem_append.mp hmem with h1 | h1
        · exact hinv m' (List.mem_cons_of_mem _ hm') h1
        · simp at h1
          exact hne h1
      rw [foldlPre_eq subs hT rest hO.2 (acc ++ [m]) hinv']
      simp

theorem foldl_dedup {α : Type} [DecidableEq α] :
    ∀ (l : List α), l.Nodup → ∀ (acc : List α),
      l.foldl (fun acc x => if x ∈ acc then acc else acc ++ [x]) acc
        = acc ++ l.filter (fun x => decide (x ∉ acc))
  | [], _, acc => by simp
  | s :: rest, hnd, acc => by
    simp only [List.nodup_cons] at hnd
    rw [List.foldl_cons]
    by_cases h : s ∈ acc
    · rw [if_pos h, foldl_dedup rest hnd.2 acc]
      have : rest.filter (fun x => decide (x ∉ acc))
          = (s :: rest).filter (fun x => decide (x ∉ acc)) := by
        simp [List.filter, h]
      rw [this]
    · rw [if_neg h, foldl_dedup rest hnd.2 (acc ++ [s])]
      have hfeq : rest.filter (fun x => decide (x ∉ acc ++ [s]))
          = rest.filter (fun x => decide (x ∉ acc)) := by
        apply List.filter_congr
        intro x hx
        have hxs : x ≠ s := fun heq => hnd.1 (heq ▸ hx)
        simp [List.mem_append, hxs]
      rw [hfeq]
      simp [List.filter, h, List.append_assoc]

theorem mem_specMatched_iff (subs : List Subsection)
    (hT : (subs.map (fun s => lowerStr s.title)).Nodup)
    (so : List Str) (s : Subsection) (hs : s ∈ subs) :
    s ∈ specMatched subs so
      ↔ so.any (fun d => lowerStr d == lowerStr s.title) = true := by
  constructor
  · intro h
    obtain ⟨-, d, hd, hlow⟩ := specMatched_mem subs so s h
    exact List.any_eq_true.mpr ⟨d, hd, by simpa using hlow.symm⟩
  · intro h
    obtain ⟨d, hd, hlow⟩ := List.any_eq_true.mp h
    have hlow' : lowerStr d = lowerStr s.title := by simpa using hlow
    rcases hf : subs.find? (fun x => lowerStr x.title == lowerStr d)
      with _ | m
    · exfalso
      rw [List.find?_eq_none] at hf
      exact hf s hs (by simpa using hlow'.symm)
    · have hm : m = s := by
        have hmem := List.mem_of_find?_eq_some hf
        have hpm : lowerStr m.title = lowerStr d := by
          simpa using List.find?_some hf
        exact List.inj_on_of_nodup_map hT hmem hs (by rw [hpm, hlow'])
      unfold specMatched
      rw [List.mem_filterMap]
      exact ⟨d, hd, by rw [hf, hm]⟩

theorem specMatched_nodup (subs : List Subsection)
    (hT : (subs.map (fun s => lowerStr s.title)).Nodup) :
    ∀ (so : List Str), (so.map lowerStr).Nodup →
      (specMatched subs so).Nodup
  | [], _ => by simp [specMatched]
  | d :: rest, hO => by
    simp only [List.map_cons, List.nodup_cons] at hO
    rcases hf : subs.find? (fun s => lowerStr s.title == lowerStr d)
      with _ | m
    · rw [specMatched_cons_none subs d rest hf]
      exact specMatched_nodup subs hT rest hO.2
    · rw [specMatched_cons_some subs d rest m hf]
      refine List.nodup_cons.mpr ⟨?_, specMatched_nodup subs hT rest hO.2⟩
      intro hmem
      obtain ⟨-, d', hd', hm'd⟩ := specMatched_mem subs rest m hmem
      apply hO.1
      have hmd : lowerStr m.title = lowerStr d := by
        simpa using List.find?_some hf
      exact List.mem_map.mpr ⟨d', hd', by rw [← hm'd, hmd]⟩

theorem orderedSteps_eq (subs : List Subsection) (so : List Str)
    (hT : (subs.map (fun s => lowerStr s.title)).Nodup)
    (hO : (so.map lowerStr).Nodup) :
    orderedSteps subs so = specMatched subs so ++ specUnmatched subs so := by
  have hsubsnd : subs.Nodup := hT.of_map
  unfold orderedSteps
  rw [foldlPre_eq subs hT so hO [] (by simp)]
  rw [List.nil_append, foldl_dedup subs hsubsnd (specMatched subs so)]
  congr 1
  unfold specUnmatched
  apply List.filter_congr
  intro s hs
  have hiff := mem_specMatched_iff subs hT so s hs
  by_cases h : s ∈ specMatched subs so
  · simp [h, hiff.mp h]
  · have hany : so.any (fun d => lowerStr d == lowerStr s.title) = false := by
      cases hb : so.any (fun d => lowerStr d == lowerStr s.title) with
      | true => exact absurd (hiff.mpr hb) h
      | false => rfl
    simp [h, hany]

theorem perm_partition {α : Type} [DecidableEq α] (l m : List α)
    (hl : l.Nodup) (hm : m.Nodup) (hsub : ∀ x ∈ m, x ∈ l) :
    (m ++ l.filter (fun s => decide (s ∉ m))).Perm l := by
  apply List.perm_of_nodup_nodup_toFinset_eq
  · refine List.Nodup.append hm (List.Nodup.filter _ hl) ?_
    intro x hxm hxf
    have := List.of_mem_filter hxf
    simp only [decide_eq_true_eq] at this
    exact this hxm
  · exact hl
  · ext x
    simp only [List.mem_toFinset, List.mem_append, List.mem_filter,
      decide_eq_true_eq]
    constructor
    · rintro (h | ⟨h, -⟩)
      · exact hsub x h
      · exact h
    · intro h
      by_cases hx : x ∈ m
      · exact Or.inl hx
      · exact Or.inr ⟨h, hx⟩

/-- A junk subsection used only as a `getD` default. -/
def sub0 : Subsection := ⟨[], []⟩

theorem enumSteps_map_title (render : Str → Str) (slug : Str) :
    ∀ (subs : List Subsection) (k : Nat),
      (enumSteps render slug subs k).map Step.title
        = subs.map Subsection.title
  | [], _ => rfl
  | sub :: rest, k => by
    simp only [enumSteps, List.map_cons]
    rw [enumSteps_map_title render slug rest (k + 1)]

theorem enumSteps_map_anchor (render : Str → Str) (slug : Str) :
    ∀ (subs : List Subsection) (k : Nat),
      (enumSteps render slug subs k).map Step.anchor
        = (List.range subs.length).map
            (fun i => slug ++ "-step-".data ++ natDigits (k + i))
  | [], _ => rfl
  | sub :: rest, k => by
    simp only [enumSteps, List.map_cons, List.length_cons,
      List.range_succ_eq_map, List.map_map,
      enumSteps_map_anchor render slug rest (k + 1)]
    congr 1
    apply List.map_congr_left
    intro a _
    have harith : k + 1 + a = k + (a + 1) := by omega
    simp [Function.comp, harith]

theorem enumSteps_map_number (render : Str → Str) (slug : Str) :
    ∀ (subs : List Subsection) (k : Nat),
      (enumSteps render slug subs k).map Step.number
        = (List.range subs.length).map (fun i => k + i)
  | [], _ => rfl
  | sub :: rest, k => by
    simp only [enumSteps, List.map_cons, List.length_cons,
      List.range_succ_eq_map, List.map_map,
      enumSteps_map_number render slug rest (k + 1)]
    congr 1
    apply List.map_congr_left
    intro a _
    have harith : k + 1 + a = k + (a + 1) := by omega
    simp [Function.comp, harith]

theorem specUnmatched_eq_filter (subs : List Subsection) (so : List Str)
    (hT : (subs.map (fun s => lowerStr s.title)).Nodup) :
    specUnmatched subs so
      = subs.filter (fun s => decide (s ∉ specMatched subs so)) := by
  unfold specUnmatched
  apply List.filter_congr
  intro s hs
  have hiff := mem_specMatched_iff subs hT so s hs
  by_cases h : s ∈ specMatched subs so
  · simp [h, hiff.mp h]
  · have hany : so.any (fun d => lowerStr d == lowerStr s.title) = false := by
      cases hb : so.any (fun d => lowerStr d == lowerStr s.title) with
      | true => exact absurd (hiff.mpr hb) h
      | false => rfl
    simp [h, hany]

/-- C6: for a section with subsections under the `numbered_steps` device
with a configured `step_order` (assuming the subsection titles and the
requested titles are each pairwise distinct case-insensitively, which is
what makes the title-keyed `lower_map` lookup well defined), the produced
steps enumerate exactly the case-insensitively matched subsections in the
requested order followed by the unmatched subsections in original order
(requested-but-absent titles are skipped, and the combined list is a
permutation of the section's subsections); each step carries 1-based
`number` and anchor `{section-slug}-step-{i}`. -/
theorem C6_numbered_steps_order :
    ∀ (render : Str → Str) (sec : Section) (layout : SectionLayout),
      sec.subsections ≠ [] →
      layout.step_order ≠ [] →
      (sec.subsections.map (fun s => lowerStr s.title)).Nodup →
      (layout.step_order.map lowerStr).Nodup →
      (specMatched sec.subsections layout.step_order
        ++ specUnmatched sec.subsections layout.step_order).Perm
          sec.subsections ∧
      prepareNumberedSteps render sec layout
        = enumSteps render sec.slug
            (specMatched sec.subsections layout.step_order
              ++ specUnmatched sec.subsections layout.step_order) 1 ∧
      (∀ subs : List Subsection,
        (enumSteps render sec.slug subs 1).map Step.title
            = subs.map Subsection.title ∧
        (enumSteps render sec.slug subs 1).map Step.anchor
            = (List.range subs.length).map
                (fun i => sec.slug ++ "-step-".data ++ natDigits (1 + i)) ∧
        (enumSteps render sec.slug subs 1).map Step.number
            = (List.range subs.length).map (fun i => 1 + i)) := by
  intro render sec layout hne hso hT hO
  refine ⟨?_, ?_, ?_⟩
  · rw [specUnmatched_eq_filter sec.subsections layout.step_order hT]
    exact perm_partition sec.subsections
      (specMatched sec.subsections layout.step_order) hT.of_map
      (specMatched_nodup sec.subsections hT layout.step_order hO)
      (fun x hx => (specMatched_mem _ _ x hx).1)
  · unfold prepareNumberedSteps
    rw [if_neg hne]
    show enumSteps render sec.slug
        (if layout.step_order = [] then sec.subsections
         else orderedSteps sec.subsections layout.step_order) 1 = _
    rw [if_neg hso, orderedSteps_eq sec.subsections layout.step_order hT hO]
  · intro subs
    exact ⟨enumSteps_map_title render sec.slug subs 1,
      enumSteps_map_anchor render sec.slug subs 1,
      enumSteps_map_number render sec.slug subs 1⟩

/-- C6 (witness): `step_order = ["Configure", "Install"]` against
subsections titled `["Install", "Configure"]` yields steps ordered
`["Configure", "Install"]` with anchors `guide-step-1`, `guide-step-2`. -/
theorem C6_witness :
    prepareNumberedSteps (fun s => s)
        ⟨"Guide".data, "Guide".data, "guide".data, 1, [], [],
          [⟨"Install".data, "i".data⟩, ⟨"Configure".data, "c".data⟩]⟩
        ⟨"numbered_steps".data, ["Configure".data, "Install".data], none⟩
      = enumSteps (fun s => s) "guide".data
          (specMatched
              [⟨"Install".data, "i".data⟩, ⟨"Configure".data, "c".data⟩]
              ["Configure".data, "Install".data]
            ++ specUnmatched
              [⟨"Install".data, "i".data⟩, ⟨"Configure".data, "c".data⟩]
              ["Configure".data, "Install".data]) 1 ∧
    (prepareNumberedSteps (fun s => s)
        ⟨"Guide".data, "Guide".data, "guide".data, 1, [], [],
          [⟨"Install".data, "i".data⟩, ⟨"Configure".data, "c".data⟩]⟩
        ⟨"numbered_steps".data, ["Configure".data, "Install".data], none⟩).map
        Step.title
      = ["Configure".data, "Install".data] ∧
    (prepareNumberedSteps (fun s => s)
        ⟨"Guide".data, "Guide".data, "guide".data, 1, [], [],
          [⟨"Install".data, "i".data⟩, ⟨"Configure".data, "c".data⟩]⟩
        ⟨"numbered_steps".data, ["Configure".data, "Install".data], none⟩).map
        Step.anchor
      = ["guide-step-1".data, "guide-step-2".data] :=
  ⟨(C6_numbered_steps_order (fun s => s)
      ⟨"Guide".data, "Guide".data, "guide".data, 1, [], [],
        [⟨"Install".data, "i".data⟩, ⟨"Configure".data, "c".data⟩]⟩
      ⟨"numbered_steps".data, ["Configure".data, "Install".data], none⟩
      (by decide) (by decide) (by decide) (by decide)).2.1,
    by decide, by decide⟩

/-- C8: with at least one fenced block, `emphasized_code_block` selects the
featured match (0-based), defaulting to 0 when absent and clamping to 0
when out of range; the body splits exactly as before-text ++ matched fence
text ++ after-text at that match, the spliced before/after text (joined by
a blank line and trimmed) is rendered as `primary_html`, and the fence's
code (newline-stripped) is rendered as `secondary_html` tagged with the
declared language (`"text"` when none was declared). -/
theorem C8_split_panel_featured :
    ∀ (render : Str → Str) (codeRender : Str → Str → Str) (sec : Section)
      (layout : SectionLayout),
      (scanFences sec.markdown).1 ≠ [] →
      (layout.emphasized_code_block = none →
        splitIndex layout (scanFences sec.markdown).1.length = 0) ∧
      (∀ k, layout.emphasized_code_block = some k →
        k < (scanFences sec.markdown).1.length →
        splitIndex layout (scanFences sec.markdown).1.length = k) ∧
      (∀ k, layout.emphasized_code_block = some k →
        (scanFences sec.markdown).1.length ≤ k →
        splitIndex layout (scanFences sec.markdown).1.length = 0) ∧
      sec.markdown
        = fenceBefore (scanFences sec.markdown).1
            (splitIndex layout (scanFences sec.markdown).1.length)
          ++ ((scanFences sec.markdown).1.getD
              (splitIndex layout (scanFences sec.markdown).1.length)
              seg0).matched
          ++ fenceAfter (scanFences sec.markdown).1 (scanFences sec.markdown).2
            (splitIndex layout (scanFences sec.markdown).1.length) ∧
      prepareSplitPanel render codeRender sec layout
        = (render (pyStrip
            (fenceBefore (scanFences sec.markdown).1
                (splitIndex layout (scanFences sec.markdown).1.length)
              ++ '\n' :: '\n' ::
              fenceAfter (scanFences sec.markdown).1
                (scanFences sec.markdown).2
                (splitIndex layout (scanFences sec.markdown).1.length))),
          codeRender
            (stripNlEdges
              (((scanFences sec.markdown).1.getD
                  (splitIndex layout (scanFences sec.markdown).1.length)
                  seg0).fence.code))
            ((((scanFences sec.markdown).1.getD
                (splitIndex layout (scanFences sec.markdown).1.length)
                seg0).fence.lang).getD "text".data)) := by
  intro render codeRender sec layout hne
  have hpos : 0 < (scanFences sec.markdown).1.length :=
    List.length_pos.mpr hne
  refine ⟨?_, ?_, ?_, ?_, ?_⟩
  · intro h
    unfold splitIndex
    rw [h]
    simp only [Option.getD_none]
    rw [if_neg (by omega)]
  · intro k h hk
    unfold splitIndex
    rw [h]
    simp only [Option.getD_some]
    rw [if_neg (by omega)]
  · intro k h hk
    unfold splitIndex
    rw [h]
    simp only [Option.getD_some]
    rw [if_pos (by omega)]
  · exact fenceSplice sec.markdown _
      (splitIndex_lt layout (scanFences sec.markdown).1.length hpos)
  · unfold prepareSplitPanel
    rw [if_neg hne]

/-- C8 (witness): the characterisation instantiated on a two-fence body
with the out-of-range index 7 — the feature clamps to match 0 and the body
splices around the first fence. -/
theorem C8_witness :
    splitIndex ⟨"split_panel".data, [], some 7⟩
        (scanFences
          "pre\n```rust\nlet x = 1;\n```\nmid\n```\nplain\n```\npost".data).1.length
      = 0 ∧
    "pre\n```rust\nlet x = 1;\n```\nmid\n```\nplain\n```\npost".data
      = fenceBefore
          (scanFences
            "pre\n```rust\nlet x = 1;\n```\nmid\n```\nplain\n```\npost".data).1
          (splitIndex ⟨"split_panel".data, [], some 7⟩
            (scanFences
              "pre\n```rust\nlet x = 1;\n```\nmid\n```\nplain\n```\npost".data).1.length)
        ++ ((scanFences
            "pre\n```rust\nlet x = 1;\n```\nmid\n```\nplain\n```\npost".data).1.getD
            (splitIndex ⟨"split_panel".data, [], some 7⟩
              (scanFences
                "pre\n```rust\nlet x = 1;\n```\nmid\n```\nplain\n```\npost".data).1.length)
            seg0).matched
        ++ fenceAfter
          (scanFences
            "pre\n```rust\nlet x = 1;\n```\nmid\n```\nplain\n```\npost".data).1
          (scanFences
            "pre\n```rust\nlet x = 1;\n```\nmid\n```\nplain\n```\npost".data).2
          (splitIndex ⟨"split_panel".data, [], some 7⟩
            (scanFences
              "pre\n```rust\nlet x = 1;\n```\nmid\n```\nplain\n```\npost".data).1.length) :=
  ⟨(C8_split_panel_featured (fun s => s) (fun c _ => c)
      ⟨"Code".data, "Code".data, "code".data, 1,
        "pre\n```rust\nlet x = 1;\n```\nmid\n```\nplain\n```\npost".data,
        [], []⟩
      ⟨"split_panel".data, [], some 7⟩ (by decide)).2.2.1 7 rfl (by decide),
    (C8_split_panel_featured (fun s => s) (fun c _ => c)
      ⟨"Code".data, "Code".data, "code".data, 1,
        "pre\n```rust\nlet x = 1;\n```\nmid\n```\nplain\n```\npost".data,
        [], []⟩
      ⟨"split_panel".data, [], some 7⟩ (by decide)).2.2.2.1⟩

/-! ## Renderer annotation (`renderer.py`): claim C9

The markdown-to-HTML conversion itself and the pygments highlighter are
third-party libraries; they enter the model only through the shape of the
HTML they hand to `_annotate_codehilite` / `_attach_language_attribute`
(one `<div class="codehilite">` open tag per highlighted block) and, for
`code_block`, as the opaque parameters `hasLexer` (whether
`get_lexer_by_name` succeeds) and `highlightFn`. -/

/-- Model of `html.escape(s, quote=True)`. -/
def escChar (c : Char) : Str :=
  if c = '&' then "&amp;".data
  else if c = '<' then "&lt;".data
  else if c = '>' then "&gt;".data
  else if c = '"' then "&quot;".data
  else if c = '\'' then "&#x27;".data
  else [c]

/-- Model of `html.escape` applied to a whole string. -/
def htmlEscape (s : Str) : Str := s.flatMap escChar

/-- The literal matched by `CODEHILITE_OPEN_TAG`. -/
def codehiliteTag : Str := "<div class=\"codehilite\">".data

/-- The replacement emitted for one highlighted block. -/
def taggedDiv (lang : Str) : Str :=
  "<div class=\"codehilite\" data-language=\"".data
    ++ htmlEscape lang ++ "\">".data

/-- Model of the `languages` list of `_annotate_codehilite`:
`group(1) or "text"` for every fence match in the source markdown. -/
def languagesOf (src : Str) : List Str :=
  (scanFences src).1.map (fun seg => seg.fence.lang.getD "text".data)

/-- Worker of `CODEHILITE_OPEN_TAG.sub(repl, html, count=len(langs))`:
replace occurrences of the open tag left to right, pairing each with the
next language, until the languages run out (fuel strictly above the
remaining length keeps this structurally recursive). -/
def annotateGo : Nat → List Str → Str → Str
  | 0, _, html => html
  | _ + 1, [], html => html
  | fuel + 1, lang :: rest, html =>
    match html with
    | [] => []
    | c :: cs =>
      if codehiliteTag.isPrefixOf (c :: cs) then
        taggedDiv lang
          ++ annotateGo fuel rest ((c :: cs).drop codehiliteTag.length)
      else c :: annotateGo fuel (lang :: rest) cs

/-- Model of `HtmlContentRenderer._annotate_codehilite`. -/
def annotateCodehilite (html source : Str) : Str :=
  if languagesOf source = [] then html
  else annotateGo (html.length + 1) (languagesOf source) html

/-- Model of `language or "text"` (`None` and the empty string both fall
back to `"text"`). -/
def pyLangOr (language : Option Str) : Str :=
  match language with
  | none => "text".data
  | some s => if s = [] then "text".data else s

/-- Model of `HtmlContentRenderer._attach_language_attribute`
(`CODEHILITE_OPEN_TAG.sub(..., count=1)`). -/
def attachLanguage (html language : Str) : Str :=
  annotateGo (html.length + 1)
    [if language = [] then "text".data else language] html

/-- Model of `HtmlContentRenderer.code_block`: `hasLexer` abstracts
whether `pygments.lexers.get_lexer_by_name` succeeds for a name, and
`highlightFn lexerName code` abstracts `pygments.highlight`. -/
def codeBlock (hasLexer : Str → Bool) (highlightFn : Str → Str → Str)
    (code : Str) (language : Option Str) : Str :=
  attachLanguage
    (highlightFn
      (if hasLexer (pyLangOr language) then pyLangOr language
       else "text".data)
      code)
    (pyLangOr language)

theorem annotateGo_fuel : ∀ (f1 : Nat) (langs : List Str) (html : Str)
    (f2 : Nat), html.length < f1 → html.length < f2 →
    annotateGo f1 langs html = annotateGo f2 langs html := by
  intro f1
  induction f1 with
  | zero => intro langs html f2 h; omega
  | succ f ih =>
    intro langs html f2 h1 h2
    cases f2 with
    | zero => omega
    | succ f2' =>
      cases langs with
      | nil => rfl
      | cons lang rest =>
        cases html with
        | nil => rfl
        | cons c cs =>
          simp only [List.length_cons] at h1 h2
          simp only [annotateGo]
          by_cases hp : codehiliteTag.isPrefixOf (c :: cs)
          · rw [if_pos hp, if_pos hp]
            congr 1
            have htag : codehiliteTag.length = 24 := rfl
            have hd : ((c :: cs).drop codehiliteTag.length).length
                ≤ cs.length := by
              rw [List.length_drop, List.length_cons, htag]
              omega
            exact ih rest _ f2' (by omega) (by omega)
          · rw [if_neg hp, if_neg hp]
            congr 1
            exact ih (lang :: rest) cs f2' (by omega) (by omega)

/-- Convenience wrapper supplying sufficient fuel. -/
def annotateRun (langs : List Str) (html : Str) : Str :=
  annotateGo (html.length + 1) langs html

theorem annotateRun_nil_langs (html : Str) : annotateRun [] html = html := by
  unfold annotateRun
  cases html <;> rfl

theorem annotateRun_nil_html (langs : List Str) : annotateRun langs [] = [] := by
  unfold annotateRun
  cases langs <;> rfl

theorem annotateRun_cons (lang : Str) (rest : List Str) (c : Char) (cs : Str) :
    annotateRun (lang :: rest) (c :: cs)
      = if codehiliteTag.isPrefixOf (c :: cs) then
          taggedDiv lang
            ++ annotateRun rest ((c :: cs).drop codehiliteTag.length)
        else c :: annotateRun (lang :: rest) cs := by
  unfold annotateRun
  simp only [List.length_cons, annotateGo]
  have htag : codehiliteTag.length = 24 := rfl
  by_cases hp : codehiliteTag.isPrefixOf (c :: cs)
  · rw [if_pos hp, if_pos hp]
    congr 1
    apply annotateGo_fuel
    · rw [List.length_drop, List.length_cons, htag]; omega
    · omega
  · rw [if_neg hp, if_neg hp]

/-- The idealised library HTML: gap strings joined by one codehilite open
tag between consecutive gaps (one highlighted block per fence). -/
def interleave : List Str → Str
  | [] => []
  | [g] => g
  | g :: gaps => g ++ codehiliteTag ++ interleave gaps

/-- The annotated form: each open tag replaced by the tagged div carrying
the corresponding language. -/
def interleaveTagged : List Str → List Str → Str
  | [], gaps => interleave gaps
  | _ :: _, [] => []
  | lang :: langs, g :: gaps => g ++ taggedDiv lang ++ interleaveTagged langs gaps

theorem isPrefixOf_append_self (l r : Str) : l.isPrefixOf (l ++ r) = true := by
  induction l with
  | nil => simp [List.isPrefixOf]
  | cons c cs ih => simp [List.isPrefixOf, ih]

theorem tag_not_prefix_of_ne (c : Char) (cs : Str) (h : c ≠ '<') :
    codehiliteTag.isPrefixOf (c :: cs) = false := by
  show (('<' :: "div class=\"codehilite\">".data).isPrefixOf (c :: cs)) = false
  simp only [List.isPrefixOf, Bool.and_eq_false_iff]
  left
  simpa using fun heq => h heq.symm

theorem annotateRun_gap (lang : Str) (langs : List Str) :
    ∀ (g : Str), '<' ∉ g → ∀ (rest : Str),
      annotateRun (lang :: langs) (g ++ codehiliteTag ++ rest)
        = g ++ taggedDiv lang ++ annotateRun langs rest
  | [], _, rest => by
    have hshape : codehiliteTag ++ rest
        = '<' :: ("div class=\"codehilite\">".data ++ rest) := rfl
    rw [List.nil_append, List.nil_append, hshape, annotateRun_cons,
      ← hshape, if_pos (isPrefixOf_append_self codehiliteTag rest),
      List.drop_left]
  | c :: g', hg, rest => by
    have hc : c ≠ '<' := fun heq => hg (by simp [heq])
    have hg' : '<' ∉ g' := fun hx => hg (by simp [hx])
    rw [List.cons_append, List.cons_append, annotateRun_cons,
      if_neg (by rw [tag_not_prefix_of_ne c _ hc]; simp),
      annotateRun_gap lang langs g' hg' rest]
    rfl

theorem annotateRun_interleave :
    ∀ (langs : List Str) (gaps : List Str),
      gaps.length = langs.length + 1 → (∀ g ∈ gaps, '<' ∉ g) →
      annotateRun langs (interleave gaps) = interleaveTagged langs gaps
  | [], gaps, _, _ => by
    rw [annotateRun_nil_langs]
    rfl
  | lang :: langs', g :: gaps', hlen, hfree => by
    have hne : gaps' ≠ [] := by
      intro h
      rw [h] at hlen
      simp at hlen
    have hint : interleave (g :: gaps') = g ++ codehiliteTag ++ interleave gaps' := by
      cases gaps' with
      | nil => exact absurd rfl hne
      | cons g2 t => rfl
    rw [hint, annotateRun_gap lang langs' g (hfree g (by simp)) _,
      annotateRun_interleave langs' gaps' (by simpa using hlen)
        (fun x hx => hfree x (by simp [hx]))]
    rfl

theorem takeWhile_append_not {α : Type} (p : α → Bool) :
    ∀ (xs : List α) (y : α) (ys : List α), (∀ x ∈ xs, p x = true) →
      p y = false →
      (xs ++ y :: ys).takeWhile p = xs ∧ (xs ++ y :: ys).dropWhile p = y :: ys
  | [], y, ys, _, hy => by
    simp [List.takeWhile, List.dropWhile, hy]
  | x :: xs, y, ys, hxs, hy => by
    have hx : p x = true := hxs x (by simp)
    obtain ⟨h1, h2⟩ := takeWhile_append_not p xs y ys
      (fun a ha => hxs a (by simp [ha])) hy
    simp [List.takeWhile, List.dropWhile, hx, h1, h2]

theorem startsTicks_cons_ne (c : Char) (x : Str) (h : c ≠ '`') :
    startsTicks (c :: x) = false := by
  simp only [startsTicks, beq_eq_false_iff_ne]
  intro heq
  have : (c :: x).take 3 = c :: x.take 2 := rfl
  rw [this] at heq
  injection heq with h1 _
  exact h h1

theorem splitTriple_append_noTick :
    ∀ (body : Str), '`' ∉ body →
      splitTriple (body ++ '`' :: '`' :: '`' :: []) = some (body, [])
  | [], _ => by decide
  | c :: cs, h => by
    have hc : c ≠ '`' := fun heq => h (by simp [heq])
    have hcs : '`' ∉ cs := fun hx => h (by simp [hx])
    rw [List.cons_append, splitTriple,
      if_neg (by rw [startsTicks_cons_ne c _ hc]; simp),
      splitTriple_append_noTick cs hcs]

theorem isLangChar_comma : isLangChar ',' = false := by decide

theorem isLangChar_newline : isLangChar '\n' = false := by decide

/-- Matching a complete fence `"```<lang>,<extras>\n<body>```"`: the
language group captures exactly the token before the comma. -/
theorem matchFenceAt_comma (l info body : Str)
    (hl : l ≠ []) (hlc : ∀ c ∈ l, isLangChar c = true)
    (hinfo : '\n' ∉ info) (hbody : '`' ∉ body) :
    matchFenceAt
        ("```".data ++ l ++ ',' :: info ++ '\n' :: body ++ "```".data)
      = some ("```".data ++ l ++ ',' :: info ++ '\n' :: body ++ "```".data,
          ⟨some l, body⟩, []) := by
  have hs : "```".data ++ l ++ ',' :: info ++ '\n' :: body ++ "```".data
      = '`' :: '`' :: '`' :: (l ++ ',' :: (info ++ '\n' :: (body ++ "```".data))) := by
    simp
  rw [hs]
  have ht : startsTicks
      ('`' :: '`' :: '`' :: (l ++ ',' :: (info ++ '\n' :: (body ++ "```".data))))
      = true := rfl
  have hdrop : ('`' :: '`' :: '`' ::
      (l ++ ',' :: (info ++ '\n' :: (body ++ "```".data)))).drop 3
      = l ++ ',' :: (info ++ '\n' :: (body ++ "```".data)) := rfl
  obtain ⟨hlang, hafter⟩ := takeWhile_append_not isLangChar l ','
    (info ++ '\n' :: (body ++ "```".data)) hlc isLangChar_comma
  have hinfo2 : ∀ x ∈ ',' :: info, (!(x = '\n')) = true := by
    intro x hx
    rcases List.mem_cons.mp hx with rfl | hx
    · decide
    · have : x ≠ '\n' := fun heq => hinfo (heq ▸ hx)
      simpa using this
  obtain ⟨hinfoTake, hinfoDrop⟩ := takeWhile_append_not
    (fun c => !(c = '\n')) (',' :: info) '\n' (body ++ "```".data)
    hinfo2 (by decide)
  have hLang : fenceLang ('`' :: '`' :: '`' ::
      (l ++ ',' :: (info ++ '\n' :: (body ++ "```".data)))) = l := by
    unfold fenceLang
    rw [hdrop]
    simpa using hlang
  have hAfter : fenceAfterLang ('`' :: '`' :: '`' ::
      (l ++ ',' :: (info ++ '\n' :: (body ++ "```".data))))
      = ',' :: (info ++ '\n' :: (body ++ "```".data)) := by
    unfold fenceAfterLang
    rw [hdrop]
    simpa using hafter
  have hInfo : fenceInfo ('`' :: '`' :: '`' ::
      (l ++ ',' :: (info ++ '\n' :: (body ++ "```".data)))) = ',' :: info := by
    unfold fenceInfo
    rw [hAfter]
    have : ',' :: (info ++ '\n' :: (body ++ "```".data))
        = (',' :: info) ++ '\n' :: (body ++ "```".data) := by simp
    rw [this]
    exact hinfoTake
  have hTail : fenceTail ('`' :: '`' :: '`' ::
      (l ++ ',' :: (info ++ '\n' :: (body ++ "```".data))))
      = '\n' :: (body ++ "```".data) := by
    unfold fenceTail
    rw [hAfter]
    have : ',' :: (info ++ '\n' :: (body ++ "```".data))
        = (',' :: info) ++ '\n' :: (body ++ "```".data) := by simp
    rw [this]
    exact hinfoDrop
  unfold matchFenceAt
  rw [if_pos ht, hTail]
  rw [if_neg (by simp)]
  have hsplit : splitTriple (('\n' :: (body ++ "```".data)).drop 1)
      = some (body, []) := by
    have : ('\n' :: (body ++ "```".data)).drop 1 = body ++ "```".data := rfl
    rw [this]
    have : body ++ "```".data = body ++ '`' :: '`' :: '`' :: [] := rfl
    rw [this]
    exact splitTriple_append_noTick body hbody
  rw [hsplit, hLang, hInfo]
  rw [if_neg hl]
  simp

/-- Matching a complete fence with no language token. -/
theorem matchFenceAt_nolang (body : Str) (hbody : '`' ∉ body) :
    matchFenceAt ("```\n".data ++ body ++ "```".data)
      = some ("```\n".data ++ body ++ "```".data, ⟨none, body⟩, []) := by
  have hs : "```\n".data ++ body ++ "```".data
      = '`' :: '`' :: '`' :: ('\n' :: (body ++ "```".data)) := by simp
  rw [hs]
  have ht : startsTicks
      ('`' :: '`' :: '`' :: ('\n' :: (body ++ "```".data))) = true := rfl
  have hdrop : ('`' :: '`' :: '`' :: ('\n' :: (body ++ "```".data))).drop 3
      = '\n' :: (body ++ "```".data) := rfl
  have hLang : fenceLang ('`' :: '`' :: '`' :: ('\n' :: (body ++ "```".data)))
      = [] := by
    unfold fenceLang
    rw [hdrop]
    simp [List.takeWhile, isLangChar_newline]
  have hAfter : fenceAfterLang
      ('`' :: '`' :: '`' :: ('\n' :: (body ++ "```".data)))
      = '\n' :: (body ++ "```".data) := by
    unfold fenceAfterLang
    rw [hdrop]
    simp [List.dropWhile, isLangChar_newline]
  have hTail : fenceTail ('`' :: '`' :: '`' :: ('\n' :: (body ++ "```".data)))
      = '\n' :: (body ++ "```".data) := by
    unfold fenceTail
    rw [hAfter]
    simp [List.dropWhile]
  unfold matchFenceAt
  rw [if_pos ht, hTail, if_neg (by simp)]
  have hsplit : splitTriple (('\n' :: (body ++ "```".data)).drop 1)
      = some (body, []) := by
    have h1 : ('\n' :: (body ++ "```".data)).drop 1 = body ++ "```".data := rfl
    have h2 : body ++ "```".data = body ++ '`' :: '`' :: '`' :: [] := rfl
    rw [h1, h2]
    exact splitTriple_append_noTick body hbody
  rw [hsplit, hLang]
  have hInfo : fenceInfo ('`' :: '`' :: '`' :: ('\n' :: (body ++ "```".data)))
      = [] := by
    unfold fenceInfo
    rw [hAfter]
    simp [List.takeWhile]
  rw [hInfo]
  simp

theorem pyLangOr_ne_nil (language : Option Str) : pyLangOr language ≠ [] := by
  cases language with
  | none => simp [pyLangOr]
  | some s =>
    by_cases h : s = []
    · simp [pyLangOr, h]
    · simp [pyLangOr, h]

/-- C9: each highlighted block is annotated with `data-language` equal to
the fence's declared language token — the part of the info string before a
comma (`"rust"` for a ```` ```rust,no_run ```` fence), `"text"` when no
language is declared — with blocks paired to fences in order; and
`code_block` tags its output with the declared language even when the
highlighter has no lexer for it (the lexer lookup falls back to `"text"`
without changing the attribute). -/
theorem C9_data_language :
    (∀ (l info body : Str), l ≠ [] → (∀ c ∈ l, isLangChar c = true) →
      '\n' ∉ info → '`' ∉ body →
      languagesOf ("```".data ++ l ++ ',' :: info ++ '\n' :: body
          ++ "```".data)
        = [l]) ∧
    (∀ body : Str, '`' ∉ body →
      languagesOf ("```\n".data ++ body ++ "```".data) = ["text".data]) ∧
    (∀ (src : Str) (gaps : List Str), languagesOf src ≠ [] →
      gaps.length = (languagesOf src).length + 1 → (∀ g ∈ gaps, '<' ∉ g) →
      annotateCodehilite (interleave gaps) src
        = interleaveTagged (languagesOf src) gaps) ∧
    (∀ (hasLexer : Str → Bool) (highlightFn : Str → Str → Str)
      (code : Str) (language : Option Str) (restHtml : Str),
      highlightFn
          (if hasLexer (pyLangOr language) then pyLangOr language
           else "text".data) code
        = codehiliteTag ++ restHtml →
      codeBlock hasLexer highlightFn code language
        = taggedDiv (pyLangOr language) ++ restHtml) := by
  refine ⟨?_, ?_, ?_, ?_⟩
  · intro l info body hl hlc hinfo hbody
    unfold languagesOf
    rw [scanFences_eq_match _ _ _ _
      (matchFenceAt_comma l info body hl hlc hinfo hbody)]
    simp [scanFences_nil]
  · intro body hbody
    unfold languagesOf
    rw [scanFences_eq_match _ _ _ _ (matchFenceAt_nolang body hbody)]
    simp [scanFences_nil]
  · intro src gaps hne hlen hfree
    unfold annotateCodehilite
    rw [if_neg hne]
    exact annotateRun_interleave (languagesOf src) gaps hlen hfree
  · intro hasLexer highlightFn code language restHtml hshape
    unfold codeBlock attachLanguage
    rw [hshape, if_neg (pyLangOr_ne_nil language)]
    have hshape2 : codehiliteTag ++ restHtml
        = [] ++ codehiliteTag ++ restHtml := by simp
    show annotateRun [pyLangOr language] (codehiliteTag ++ restHtml) = _
    rw [hshape2, annotateRun_gap (pyLangOr language) [] [] (by simp) restHtml,
      annotateRun_nil_langs]
    simp

/-- C9 (witness): a ```` ```rust,no_run ```` fence yields language
`"rust"`; a bare fence yields `"text"`; annotation pairs the tag with the
fence's language; and `code_block` keeps `data-language="rust"` even under
a highlighter with no lexers at all. -/
theorem C9_witness :
    languagesOf "```rust,no_run\nfn main() {}\n```".data = ["rust".data] ∧
    languagesOf "```\nx\n```".data = ["text".data] ∧
    annotateCodehilite (interleave ["A".data, "B".data])
        "```rust,no_run\nfn main() {}\n```".data
      = interleaveTagged
          (languagesOf "```rust,no_run\nfn main() {}\n```".data)
          ["A".data, "B".data] ∧
    codeBlock (fun _ => false) (fun _ c => codehiliteTag ++ c) "x".data
        (some "rust".data)
      = taggedDiv (pyLangOr (some "rust".data)) ++ "x".data :=
  ⟨C9_data_language.1 "rust".data "no_run".data "fn main() {}\n".data
      (by decide) (by decide) (by decide) (by decide),
    C9_data_language.2.1 "x\n".data (by decide),
    C9_data_language.2.2.1 "```rust,no_run\nfn main() {}\n```".data
      ["A".data, "B".data] (by decide) (by decide) (by decide),
    C9_data_language.2.2.2 (fun _ => false) (fun _ c => codehiliteTag ++ c)
      "x".data (some "rust".data) "x".data rfl⟩

/-! ## Link rewriter (`link_rewriter.py`): claims C4 and C5

`RelativeLinkTreeprocessor.run` sets an anchor's `href` to the rewritten
URL only when `_rewrite` returns a non-empty result, so `_rewrite`
returning `None` models "the link is left completely unmodified".  The
used subsets of `urllib.parse.urlsplit` and `posixpath` are embedded
below following their CPython definitions. -/

/-- Split at the first occurrence of a character. -/
def splitFirst (sep : Char) : Str → Option (Str × Str)
  | [] => none
  | c :: cs =>
    if c = sep then some ([], cs)
    else
      match splitFirst sep cs with
      | some (a, b) => some (c :: a, b)
      | none => none

/-- Substring test (`needle in haystack`). -/
def hasSub (sub : Str) : Str → Bool
  | [] => sub.isPrefixOf []
  | c :: cs => sub.isPrefixOf (c :: cs) || hasSub sub cs

/-- CPython `scheme_chars = ascii letters + digits + "+-."`. -/
def isSchemeChar (c : Char) : Bool :=
  c.isAlpha || c.isDigit || c = '+' || c = '-' || c = '.'

/-- Result of `urllib.parse.urlsplit`. -/
structure UrlParts where
  scheme : Str
  netloc : Str
  path : Str
  query : Str
  fragment : Str
deriving Repr, DecidableEq

/-- Model of `urllib.parse.urlsplit` (CPython): strip unsafe bytes,
recognise a scheme (first char an ASCII letter, the rest scheme
characters, before the first colon), a `//`-introduced netloc up to the
next `/`, `?` or `#`, then split off the fragment and the query. -/
def urlsplitModel (url0 : Str) : UrlParts :=
  let url1 := url0.filter (fun c => !(c = '\t' || c = '\r' || c = '\n'))
  let (scheme, url2) :=
    match splitFirst ':' url1 with
    | some (pre, post) =>
      if pre ≠ [] ∧ (pre.headD ' ').isAlpha ∧ pre.all isSchemeChar then
        (lowerStr pre, post)
      else ([], url1)
    | none => ([], url1)
  let (netloc, url3) :=
    if ('/' :: '/' :: []).isPrefixOf url2 then
      ((url2.drop 2).takeWhile (fun c => !(c = '/' || c = '?' || c = '#')),
        (url2.drop 2).dropWhile (fun c => !(c = '/' || c = '?' || c = '#')))
    else ([], url2)
  let (url4, fragment) :=
    match splitFirst '#' url3 with
    | some (a, b) => (a, b)
    | none => (url3, [])
  let (path, query) :=
    match splitFirst '?' url4 with
    | some (a, b) => (a, b)
    | none => (url4, [])
  ⟨scheme, netloc, path, query, fragment⟩

/-- Model of `posixpath.join` for two arguments. -/
def pyJoin (a b : Str) : Str :=
  if b.headD ' ' = '/' then b
  else if a = [] ∨ a.getLastD ' ' = '/' then a ++ b
  else a ++ '/' :: b

/-- Split on `/` (like `splitNl` but for path components). -/
def splitSlash : Str → List Str
  | [] => [[]]
  | c :: cs =>
    let r := splitSlash cs
    if c = '/' then [] :: r
    else
      match r with
      | [] => [[c]]
      | l :: ls => (c :: l) :: ls

/-- Join path components with `/`. -/
def joinSlash : List Str → Str
  | [] => []
  | [l] => l
  | l :: ls => l ++ '/' :: joinSlash ls

/-- Model of `posixpath.normpath` (CPython): drop empty and `.`
components, let `..` cancel a preceding real component, keep leading `..`
for relative paths, and preserve the initial-slash count (2 exactly for
`//`-prefixed, else 1). -/
def pyNormpath (path : Str) : Str :=
  if path = [] then ".".data
  else
    let initialSlashes : Nat :=
      if ('/' :: []).isPrefixOf path then
        if ('/' :: '/' :: []).isPrefixOf path
            ∧ ¬ ('/' :: '/' :: '/' :: []).isPrefixOf path then 2 else 1
      else 0
    let newComps := (splitSlash path).foldl (fun acc comp =>
      if comp = [] ∨ comp = ".".data then acc
      else if comp ≠ "..".data ∨ (initialSlashes = 0 ∧ acc = [])
          ∨ (acc ≠ [] ∧ acc.getLast? = some "..".data) then acc ++ [comp]
      else if acc ≠ [] then acc.dropLast
      else acc) []
    let joined := List.replicate initialSlashes '/' ++ joinSlash newComps
    if joined = [] then ".".data else joined

/-- Model of `while joined.startswith("../"): joined = joined[3:]`. -/
def stripLeadingDotDot : Str → Str
  | '.' :: '.' :: '/' :: rest => stripLeadingDotDot rest
  | s => s

/-- The scheme-prefix / fragment / protocol-relative checks of `_rewrite`
(everything before `urlsplit` is consulted). -/
def isSchemeLike (target : Str) : Bool :=
  "http://".data.isPrefixOf (lowerStr target)
    || "https://".data.isPrefixOf (lowerStr target)
    || "mailto:".data.isPrefixOf (lowerStr target)
    || "tel:".data.isPrefixOf (lowerStr target)
    || "data:".data.isPrefixOf (lowerStr target)
    || "javascript:".data.isPrefixOf (lowerStr target)
    || "#".data.isPrefixOf target
    || "//".data.isPrefixOf target
    || hasSub "://".data target

/-- The `urlsplit`-based validity checks of `_rewrite`. -/
def urlPartsInvalid (p : UrlParts) : Bool :=
  p.scheme ≠ [] || p.netloc ≠ [] || (p.path = [] && p.fragment ≠ [])
    || p.path.headD ' ' = '/'

/-- Model of `RelativeLinkTreeprocessor._rewrite`; `none` means the link
target is left unmodified by `run`. -/
def rewriteTarget (repo ref baseDir target : Str) : Option Str :=
  if target = [] then none
  else if isSchemeLike target then none
  else if urlPartsInvalid (urlsplitModel target) then none
  else
    if stripLeadingDotDot
        (pyNormpath (pyJoin baseDir (urlsplitModel target).path)) = ".".data
      ∨ stripLeadingDotDot
        (pyNormpath (pyJoin baseDir (urlsplitModel target).path)) = [] then
      none
    else
      some ("https://github.com/".data ++ repo ++ "/blob/".data ++ ref
        ++ '/' :: stripLeadingDotDot
          (pyNormpath (pyJoin baseDir (urlsplitModel target).path))
        ++ (if (urlsplitModel target).query ≠ []
            then '?' :: (urlsplitModel target).query else [])
        ++ (if (urlsplitModel target).fragment ≠ []
            then '#' :: (urlsplitModel target).fragment else []))

/-- Model of `posixpath.dirname`. -/
def pyDirname (p : Str) : Str :=
  let head := (p.reverse.dropWhile (fun c => !(c = '/'))).reverse
  if head ≠ [] ∧ ¬ head.all (fun c => c = '/') then
    (head.reverse.dropWhile (fun c => c = '/')).reverse
  else head

/-- Model of `_build_link_rewriter`: `None` without a repo, otherwise the
(repo, ref, base_dir) triple with `ref = latest_release or branch`. -/
def buildLinkRewriter (repo : Option Str) (latestRelease : Option Str)
    (branch : Str) (docPath : Str) : Option (Str × Str × Str) :=
  match repo with
  | none => none
  | some r =>
    if r = [] then none
    else
      some (r,
        (match latestRelease with
          | some t => if t = [] then branch else t
          | none => branch),
        pyDirname docPath)

/-- C4 (counterexample): the relative target `../../cli.md` (no scheme, no
netloc, path not starting with `/`) joined against base directory `docs`
normalizes to `../cli.md`, so the claim requires the URL
`https://github.com/df12/testdocs/blob/main/../cli.md`; the code instead
strips the leading `../` and produces `.../blob/main/cli.md`. -/
theorem C4_counterexample :
    rewriteTarget "df12/testdocs".data "main".data "docs".data
        "../../cli.md".data
      = some "https://github.com/df12/testdocs/blob/main/cli.md".data ∧
    pyNormpath (pyJoin "docs".data
        (urlsplitModel "../../cli.md".data).path) = "../cli.md".data ∧
    some "https://github.com/df12/testdocs/blob/main/cli.md".data
      ≠ some "https://github.com/df12/testdocs/blob/main/../cli.md".data := by
  refine ⟨by decide, by decide, by decide⟩

/-- C4 (amended): for a non-empty relative target that passes the scheme
and urlsplit checks, the rewriter produces
`https://github.com/<repo>/blob/<ref>/<path>[?query][#fragment]` where
`<path>` is the link path joined against the base directory, normalized,
and **with leading `../` segments stripped** — provided the stripped path
is neither empty nor `"."` (otherwise the link is left unmodified).  The
`<ref>` is the page's latest release when one is configured and non-empty,
else its branch, with the base directory the dirname of `doc_path`. -/
theorem C4_amended :
    (∀ (repo ref baseDir target : Str),
      target ≠ [] → isSchemeLike target = false →
      urlPartsInvalid (urlsplitModel target) = false →
      stripLeadingDotDot
          (pyNormpath (pyJoin baseDir (urlsplitModel target).path))
        ≠ ".".data →
      stripLeadingDotDot
          (pyNormpath (pyJoin baseDir (urlsplitModel target).path)) ≠ [] →
      rewriteTarget repo ref baseDir target
        = some ("https://github.com/".data ++ repo ++ "/blob/".data ++ ref
          ++ '/' :: stripLeadingDotDot
            (pyNormpath (pyJoin baseDir (urlsplitModel target).path))
          ++ (if (urlsplitModel target).query ≠ []
              then '?' :: (urlsplitModel target).query else [])
          ++ (if (urlsplitModel target).fragment ≠ []
              then '#' :: (urlsplitModel target).fragment else []))) ∧
    (∀ (r tag branch docPath : Str), r ≠ [] → tag ≠ [] →
      buildLinkRewriter (some r) (some tag) branch docPath
        = some (r, tag, pyDirname docPath)) ∧
    (∀ (r branch docPath : Str), r ≠ [] →
      buildLinkRewriter (some r) none branch docPath
        = some (r, branch, pyDirname docPath)) := by
  refine ⟨?_, ?_, ?_⟩
  · intro repo ref baseDir target h0 h1 h2 h3 h4
    unfold rewriteTarget
    rw [if_neg h0, if_neg (by simp [h1]), if_neg (by simp [h2]),
      if_neg (by rw [not_or]; exact ⟨h3, h4⟩)]
  · intro r tag branch docPath hr htag
    show (if r = [] then none
      else some (r, if tag = [] then branch else tag, pyDirname docPath)) = _
    rw [if_neg hr, if_neg htag]
  · intro r branch docPath hr
    show (if r = [] then none else some (r, branch, pyDirname docPath)) = _
    rw [if_neg hr]

/-- C4 (witness): the specification's example — `repo="df12/testdocs"`,
`branch="main"`, no release, `doc_path="docs/users-guide.md"`, link
`../cli.md#flags` — rewrites to
`https://github.com/df12/testdocs/blob/main/cli.md#flags`. -/
theorem C4_witness :
    rewriteTarget "df12/testdocs".data "main".data
        (pyDirname "docs/users-guide.md".data) "../cli.md#flags".data
      = some "https://github.com/df12/testdocs/blob/main/cli.md#flags".data ∧
    buildLinkRewriter (some "df12/testdocs".data) none "main".data
        "docs/users-guide.md".data
      = some ("df12/testdocs".data, "main".data, "docs".data) :=
  ⟨(C4_amended.1 "df12/testdocs".data "main".data
      (pyDirname "docs/users-guide.md".data) "../cli.md#flags".data
      (by decide) (by decide) (by decide) (by decide) (by decide)).trans
      (by decide),
    (C4_amended.2.2 "df12/testdocs".data "main".data
      "docs/users-guide.md".data (by decide)).trans (by decide)⟩

/-- C5 (counterexample): the target `../../guide/setup.md` from base
directory `docs` normalizes outside the repo root (`../guide/setup.md`),
yet the rewriter does **not** leave it unmodified: it strips the leading
`../` and rewrites the link. -/
theorem C5_counterexample :
    pyNormpath (pyJoin "docs".data
        (urlsplitModel "../../guide/setup.md".data).path)
      = "../guide/setup.md".data ∧
    rewriteTarget "df12/testdocs".data "main".data "docs".data
        "../../guide/setup.md".data
      = some "https://github.com/df12/testdocs/blob/main/guide/setup.md".data ∧
    rewriteTarget "df12/testdocs".data "main".data "docs".data
        "../../guide/setup.md".data ≠ none := by
  refine ⟨by decide, by decide, by decide⟩

/-- C5 (amended): the rewriter leaves a link unmodified (returns `None`,
so `run` keeps the original `href`) when the target is empty, is
absolute / fragment-only / protocol-relative / scheme-carrying (the
prefix checks or the urlsplit checks fire), or when the joined and
normalized path — **after** stripping leading `../` segments — is empty
or `"."`.  A path that merely normalizes outside the repo root is *not*
skipped: its leading `../` segments are stripped and it is rewritten. -/
theorem C5_amended :
    ∀ (repo ref baseDir target : Str),
      (target = [] ∨ isSchemeLike target = true
        ∨ urlPartsInvalid (urlsplitModel target) = true
        ∨ stripLeadingDotDot
            (pyNormpath (pyJoin baseDir (urlsplitModel target).path))
          = ".".data
        ∨ stripLeadingDotDot
            (pyNormpath (pyJoin baseDir (urlsplitModel target).path)) = []) →
      rewriteTarget repo ref baseDir target = none := by
  intro repo ref baseDir target h
  unfold rewriteTarget
  by_cases h0 : target = []
  · rw [if_pos h0]
  · rw [if_neg h0]
    by_cases h1 : isSchemeLike target = true
    · rw [if_pos h1]
    · rw [if_neg h1]
      by_cases h2 : urlPartsInvalid (urlsplitModel target) = true
      · rw [if_pos h2]
      · rw [if_neg h2]
        have h3 : stripLeadingDotDot
              (pyNormpath (pyJoin baseDir (urlsplitModel target).path))
            = ".".data
          ∨ stripLeadingDotDot
              (pyNormpath (pyJoin baseDir (urlsplitModel target).path))
            = [] := by
          rcases h with h | h | h | h | h
          · exact absurd h h0
          · exact absurd h h1
          · exact absurd h h2
          · exact Or.inl h
          · exact Or.inr h
        rw [if_pos h3]

/-- C5 (witness): skip cases instantiated — a `mailto:` link, a
fragment-only link, a protocol-relative link, and a link normalizing to
the base directory itself (`"."` after normalization from the repo
root). -/
theorem C5_witness :
    rewriteTarget "df12/testdocs".data "main".data "docs".data
        "mailto:hi@df12.example".data = none ∧
    rewriteTarget "df12/testdocs".data "main".data "docs".data
        "#section-2".data = none ∧
    rewriteTarget "df12/testdocs".data "main".data "docs".data
        "//cdn.example/lib.js".data = none ∧
    rewriteTarget "df12/testdocs".data "main".data "docs".data
        "..".data = none :=
  ⟨C5_amended "df12/testdocs".data "main".data "docs".data
      "mailto:hi@df12.example".data (Or.inr (Or.inl (by decide))),
    C5_amended "df12/testdocs".data "main".data "docs".data
      "#section-2".data (Or.inr (Or.inl (by decide))),
    C5_amended "df12/testdocs".data "main".data "docs".data
      "//cdn.example/lib.js".data (Or.inr (Or.inl (by decide))),
    C5_amended "df12/testdocs".data "main".data "docs".data
      "..".data (Or.inr (Or.inr (Or.inr (Or.inl (by decide)))))⟩
